import Mathlib

/-!
Verification development for the `git-fold` / `git-entropy` absorb tool.

This file gives a shallow embedding, in Lean, of the core pure algorithms
of the repository:

* the per-blob amendment store (`AmendedBlob.replace_lines`, `amend.py`);
* the amendment re-basing merge walk (`AmendedBlob.adjusted_by_diff` and
  `AmendedBlob._stream_amendments_and_diff_hunks`, `amend.py`);
* the streaming blob rewrite (`AmendedBlob.write`, `amend.py`);
* the reverse-topological commit-graph walk
  (`CommitGraph.reverse_topo_ordering`, `log.py`);
* the blame porcelain coalescing (`parse_blame` / `run_blame`, `blame.py`);
* the per-hunk planning driver (`add_hunk_to_plan`, `__init__.py`);
* the diff parser state machine and its error context windows
  (`diff_parser.py`);
* object identifiers (`OID`, `git.py`).

Python integers are modelled as `Int` (or `Nat` where the source only ever
holds non-negative values), byte strings as `List Nat`, and raised
exceptions as `Except` errors.  Subprocess invocations are modelled as
explicit oracle arguments so that theorems can quantify over every
possible subprocess behaviour.
-/

namespace GitFold

/-- Byte strings (`bytes` in the source) are modelled as lists of naturals. -/
abbrev Bytes := List Nat

/-- `AmendmentRecord` from `amend.py`: `(start, extent, replacement)`.
`start` and `extent` are Python ints. -/
structure AmendmentRecord where
  start : Int
  extent : Int
  replacement : Bytes
  deriving DecidableEq, Repr

/-- Lexicographic `<` on byte strings, as Python compares `bytes`. -/
def bytesLtb : Bytes → Bytes → Bool
  | [], [] => false
  | [], _ :: _ => true
  | _ :: _, [] => false
  | a :: as, b :: bs => a < b || (a == b && bytesLtb as bs)

/-- Tuple comparison on `AmendmentRecord` as Python compares the
`NamedTuple` `(start, extent, replacement)` lexicographically. -/
def recLtb (a b : AmendmentRecord) : Bool :=
  a.start < b.start
    || (a.start == b.start
        && (a.extent < b.extent
            || (a.extent == b.extent && bytesLtb a.replacement b.replacement)))

/-- `bisect.bisect_left(self.amendments, record)` specialised to sorted
lists: the number of leading elements strictly below `record` in the tuple
order.  (On the sorted amendment lists maintained by `replace_lines` this
is exactly what `bisect_left` returns.) -/
def bisectLeft (l : List AmendmentRecord) (r : AmendmentRecord) : Nat :=
  (l.takeWhile (fun q => recLtb q r)).length

/-- Insert an element at a given position (`list.insert(index, record)`). -/
def insertAt : List AmendmentRecord → Nat → AmendmentRecord → List AmendmentRecord
  | l, 0, x => x :: l
  | [], _ + 1, x => [x]
  | y :: ys, n + 1, x => y :: insertAt ys n x

/-- `AmendedBlob.replace_lines` from `amend.py` (identical in both
packages): bisect to the insertion point, reject an overlap with the
record before or after the insertion point, silently drop an exact
duplicate, and otherwise insert. -/
def replaceLines (l : List AmendmentRecord) (start extent : Int) (newLines : Bytes) :
    Except String (List AmendmentRecord) :=
  let record : AmendmentRecord := ⟨start, extent, newLines⟩
  let index := bisectLeft l record
  let priorOverlap : Bool :=
    index != 0 &&
      (match l.get? (index - 1) with
       | some prior => prior.start + prior.extent > start
       | none => false)
  if priorOverlap then .error "overlapping amendments requested"
  else
    match l.get? index with
    | some next =>
      if record = next then .ok l
      else if start + extent > next.start then .error "overlapping amendments requested"
      else .ok (insertAt l index record)
    | none => .ok (insertAt l index record)

/-- The Boolean neighbour check of `replace_lines` against the record
just before the insertion point (used to reason about `replaceLines` at
a bisect point directly after a prefix `P`). -/
def priorCheck (P : List AmendmentRecord) (s : Int) : Bool :=
  match P.getLast? with
  | some pr => decide (pr.start + pr.extent > s)
  | none => false

/-- Two amendment records' line ranges overlap: the half-open intervals
`[start, start+extent)` intersect. -/
def recOverlap (a b : AmendmentRecord) : Prop :=
  a.start < b.start + b.extent ∧ b.start < a.start + a.extent

instance (a b : AmendmentRecord) : Decidable (recOverlap a b) := by
  unfold recOverlap; infer_instance

/-- The amendment-list invariant of the spec: records sorted by start with
`r_i.start + r_i.extent ≤ r_{i+1}.start` for adjacent (hence all) pairs. -/
def sepList (l : List AmendmentRecord) : Prop :=
  l.Pairwise (fun p q => p.start + p.extent ≤ q.start)

/-- `FileLineMapping` from `git.py`: one atomic edit of a hunk, as
`(old_start, old_extent, new_start, new_extent)`. -/
structure FileLineMapping where
  old_start : Int
  old_extent : Int
  new_start : Int
  new_extent : Int
  deriving DecidableEq, Repr

/-- The mapping-side steps of the merge walk of
`AmendedBlob._stream_amendments_and_diff_hunks` (`amend.py`) while the
head amendment `a` has not yet been reached (`¬ (a.start <
m.old_start)`): each such mapping is checked against `a`
(`m.old_start + m.old_extent > a.start` raises) and then yielded, which
in `adjusted_by_diff` adds `new_extent - old_extent` to the running
offset.  Returns the remaining mappings (whose head, if any, satisfies
`a.start < old_start`) together with the updated offset. -/
def skipMaps (a : AmendmentRecord) :
    List FileLineMapping → Int → Except String (List FileLineMapping × Int)
  | [], offset => .ok ([], offset)
  | m :: mapRest, offset =>
    if a.start < m.old_start then .ok (m :: mapRest, offset)
    else if m.old_start + m.old_extent > a.start then .error "amendment overlaps diff delta"
    else skipMaps a mapRest (offset + m.new_extent - m.old_extent)

/-- The merge walk of `AmendedBlob._stream_amendments_and_diff_hunks`
fused with the consuming loop of `AmendedBlob.adjusted_by_diff`
(`amend.py`), organised per amendment: for the head amendment the walk
first yields every mapping lying at or before its start (`skipMaps`),
then checks the amendment against the next mapping
(`a.start + a.extent > old_start` raises) and re-adds it at
`start + offset` via `replace_lines`.  When the amendments run out, the
remaining mappings are drained with no further effect, exactly as in the
generator. -/
def adjGo :
    List AmendmentRecord → List FileLineMapping → Int → List AmendmentRecord →
      Except String (List AmendmentRecord)
  | [], _, _, acc => .ok acc
  | a :: amendRest, maps, offset, acc =>
    match skipMaps a maps offset with
    | .error e => .error e
    | .ok (maps2, offset2) =>
      match maps2 with
      | m :: _ =>
        if a.start + a.extent > m.old_start then .error "amendment overlaps diff delta"
        else
          match replaceLines acc (a.start + offset2) a.extent a.replacement with
          | .error e => .error e
          | .ok acc2 => adjGo amendRest maps2 offset2 acc2
      | [] =>
        match replaceLines acc (a.start + offset2) a.extent a.replacement with
        | .error e => .error e
        | .ok acc2 => adjGo amendRest [] offset2 acc2

/-- `AmendedBlob.adjusted_by_diff` (`amend.py`), at the level of the
amendment list: rebases the amendments through the concatenated
file-line-mapping stream of the diff hunks. -/
def adjustedByDiff (amends : List AmendmentRecord) (maps : List FileLineMapping) :
    Except String (List AmendmentRecord) :=
  adjGo amends maps 0 []

/-- An amendment's old-file range fails strict separation from a
mapping's old range (the spec's "overlap"): with non-empty ranges this is
exactly a non-empty intersection of `[start, start+extent)` and
`[old_start, old_start+old_extent)`. -/
def mapOverlap (a : AmendmentRecord) (m : FileLineMapping) : Prop :=
  a.start < m.old_start + m.old_extent ∧ m.old_start < a.start + a.extent

instance (a : AmendmentRecord) (m : FileLineMapping) : Decidable (mapOverlap a m) := by
  unfold mapOverlap; infer_instance

/-- Overlap of two half-open amendment/mapping old ranges as literal
interval intersection (the claim's reading of "overlaps"): used to state
the original claims; for empty ranges it differs from `mapOverlap`. -/
def intervalsIntersect (s e os oe : Int) : Prop :=
  ∃ x : Int, s ≤ x ∧ x < s + e ∧ os ≤ x ∧ x < os + oe

/-- Spec-side running offset: the sum of `new_extent - old_extent` over
the mappings that occur (entirely) before old-file position `s`. -/
def offsetBefore (maps : List FileLineMapping) (s : Int) : Int :=
  ((maps.filter (fun m => m.old_start + m.old_extent ≤ s)).map
    (fun m => m.new_extent - m.old_extent)).sum

/-- Total offset contributed by a block of mappings: the sum of their
`new_extent - old_extent` deltas (the quantity `adjusted_by_diff` adds
to its running `offset` for each consumed mapping). -/
def sumDelta (l : List FileLineMapping) : Int :=
  (l.map (fun m => m.new_extent - m.old_extent)).sum

/-- Total old-file extent of a block of mappings. -/
def sumOld (l : List FileLineMapping) : Int :=
  (l.map (fun m => m.old_extent)).sum

/-- Spec-side result of re-basing: every amendment shifted by the offset
accumulated from the mappings that lie before it in old-file order. -/
def shiftedAmendments (maps : List FileLineMapping) (amends : List AmendmentRecord) :
    List AmendmentRecord :=
  amends.map (fun a => ⟨a.start + offsetBefore maps a.start, a.extent, a.replacement⟩)

/-! ## Streaming blob rewrite (`AmendedBlob.write`, `amend.py`) -/

/-- The body of the `while` loop of `AmendedBlob.write`: the source blob
is read line by line (1-based `lineno`); at each line the current
amendment pointer advances at most one step (when
`lineno > amend.start + amend.extent`), the replacement is written when
`lineno == amend.start`, input lines with
`amend.start ≤ lineno < amend.start + amend.extent` are suppressed, and
all other lines pass through.  Output is the list of written chunks. -/
def writeLoop : List AmendmentRecord → Int → List Bytes → List Bytes
  | _, _, [] => []
  | amends, lineno, line :: rest =>
    let amends2 :=
      match amends with
      | a :: tail => if lineno > a.start + a.extent then tail else amends
      | [] => ([] : List AmendmentRecord)
    match amends2 with
    | a :: _ =>
      (if lineno = a.start then [a.replacement] else [])
        ++ (if a.start ≤ lineno ∧ lineno < a.start + a.extent then [] else [line])
        ++ writeLoop amends2 (lineno + 1) rest
    | [] => line :: writeLoop [] (lineno + 1) rest

/-- `AmendedBlob.write` (`amend.py`) at line granularity: the source
object's newline-terminated lines go in, the written chunks come out. -/
def blobWrite (amends : List AmendmentRecord) (lines : List Bytes) : List Bytes :=
  writeLoop amends 1 lines

/-- The output the spec describes for the streaming rewrite: at each line
number, the replacements of amendments starting there are emitted, lines
inside an amendment's `[start, start+extent)` range are suppressed, and
all other lines pass through verbatim. -/
def specWriteLoop : List AmendmentRecord → Int → List Bytes → List Bytes
  | _, _, [] => []
  | amends, lineno, line :: rest =>
    ((amends.filter (fun a => a.start == lineno)).map (fun a => a.replacement))
      ++ (if amends.any (fun a => a.start ≤ lineno && lineno < a.start + a.extent)
          then [] else [line])
      ++ specWriteLoop amends (lineno + 1) rest

/-- Spec-side streaming rewrite over a whole blob. -/
def specWrite (amends : List AmendmentRecord) (lines : List Bytes) : List Bytes :=
  specWriteLoop amends 1 lines

/-! ## Commit graph (`log.py`) -/

/-- The partial commit graph: the `child_to_parents` mapping, as an
association list over commit identifiers (OIDs modelled as `Nat`). -/
abbrev CommitGraph := List (Nat × List Nat)

/-- Dictionary lookup in `child_to_parents`. -/
def lookupG : CommitGraph → Nat → Option (List Nat)
  | [], _ => none
  | (c, ps) :: rest, x => if c = x then some ps else lookupG rest x

/-- The first-visit frames pushed by `reverse_topo_ordering` for a
node's parents: one unmarked frame per parent that is not yet visited
and is present in the partial map, in parent order. -/
def childFrames (g : CommitGraph) (visited : List Nat) (parents : List Nat) :
    List (Nat × List Nat × Bool) :=
  parents.filterMap (fun p =>
    if p ∈ visited then none
    else
      match lookupG g p with
      | none => none
      | some gps => some (p, gps, false))

/-- The loop of `CommitGraph.reverse_topo_ordering` (`log.py`): an
iterative DFS over a two-visit work stack of `(child, parents,
has_recursed)` frames (head of the list = top of the stack).  On a first
visit the frame is re-pushed with the marker set and frames for the
not-yet-visited in-graph parents are pushed above it (in parent order);
on a second visit the child is marked visited and appended to the
ordering.  `fuel` bounds the number of iterations; `none` means the fuel
ran out. -/
def rtGo (g : CommitGraph) :
    Nat → List (Nat × List Nat × Bool) → List Nat → List Nat → Option (List Nat)
  | 0, _, _, _ => none
  | _ + 1, [], _, ordering => some ordering
  | fuel + 1, (child, parents, hasRecursed) :: rest, visited, ordering =>
    if hasRecursed then
      rtGo g fuel rest (child :: visited) (ordering ++ [child])
    else
      rtGo g fuel (childFrames g visited parents ++ (child, parents, true) :: rest)
        visited ordering

/-- `CommitGraph.reverse_topo_ordering` (`log.py`).  The initial stack
holds the head's frame; `self.child_to_parents[head]` raising `KeyError`
for an unknown head is modelled as `none` (as is fuel exhaustion, which
cannot occur for any terminating run given enough fuel). -/
def reverseTopoOrdering (g : CommitGraph) (head : Nat) (fuel : Nat) : Option (List Nat) :=
  match lookupG g head with
  | none => none
  | some ps => rtGo g fuel [(head, ps, false)] [] []

/-- Reachability from `a` through in-graph parent links, every node on
the path (including both ends) being present in the partial map. -/
inductive Reaches (g : CommitGraph) : Nat → Nat → Prop
  | refl (c : Nat) (h : (lookupG g c).isSome) : Reaches g c c
  | step (c p x : Nat) (ps : List Nat) (hc : lookupG g c = some ps) (hp : p ∈ ps)
      (hx : Reaches g p x) : Reaches g c x

/-- The parents-before-children property of a topological listing:
wherever a commit occurs in the listing, each of its in-graph parents
occurs strictly earlier. -/
def OrdProp (g : CommitGraph) (ordering : List Nat) : Prop :=
  ∀ l1 c l2, ordering = l1 ++ c :: l2 → ∀ ps, lookupG g c = some ps →
    ∀ p ∈ ps, (lookupG g p).isSome → p ∈ l1

/-- Invariant of the DFS work stack: every marked (second-visit) frame
has each of its in-graph parents either already visited or named by a
frame strictly above it on the stack. -/
def TProp (g : CommitGraph) (stack : List (Nat × List Nat × Bool))
    (visited : List Nat) : Prop :=
  ∀ A f B, stack = A ++ f :: B → f.2.2 = true →
    ∀ p ∈ f.2.1, (lookupG g p).isSome → p ∈ visited ∨ ∃ f2 ∈ A, f2.1 = p

/-! ## Blame parsing (`blame.py`) -/

/-- `IndexedRange` from `git.py`: a line span in `file` as reached
through revision `rev`.  Revisions are their textual hash form. -/
structure IndexedRange where
  rev : String
  file : String
  start : Int
  extent : Int
  deriving DecidableEq, Repr

/-- One entry of `get_blame_transforms` (`blame.py`): the attribution of
a single output line to its source commit. -/
structure BlameLineProperties where
  rev : String
  filename : String
  is_boundary : Bool
  old_line : Int
  new_line : Int
  starts_seq : Bool
  deriving DecidableEq, Repr

/-- The fresh extent-1 `(source_range, target_range)` pair appended by
`parse_blame` for a non-coalescible entry. -/
def freshPair (srcRange : IndexedRange) (t : BlameLineProperties) :
    IndexedRange × IndexedRange :=
  (⟨t.rev, t.filename, t.old_line, 1⟩, ⟨srcRange.rev, srcRange.file, t.new_line, 1⟩)

/-- The loop of `parse_blame` (`blame.py`) over the transformed entry
stream.  The accumulator is kept in reverse order (head = the most
recently appended pair, which the source widens in place via
`last_old.extent += 1`). -/
def parseBlameGo (srcRange : IndexedRange) (includeBoundary : Bool) :
    List BlameLineProperties → List (IndexedRange × IndexedRange) →
      List (IndexedRange × IndexedRange)
  | [], acc => acc.reverse
  | t :: rest, acc =>
    if !includeBoundary && t.is_boundary then
      parseBlameGo srcRange includeBoundary rest acc
    else
      match acc with
      | (lastOld, lastNew) :: accTail =>
        if !t.starts_seq
            && lastOld.file == t.filename
            && lastOld.start + lastOld.extent == t.old_line
            && lastNew.start + lastNew.extent == t.new_line then
          parseBlameGo srcRange includeBoundary rest
            ((⟨lastOld.rev, lastOld.file, lastOld.start, lastOld.extent + 1⟩,
              ⟨lastNew.rev, lastNew.file, lastNew.start, lastNew.extent + 1⟩) :: accTail)
        else
          parseBlameGo srcRange includeBoundary rest (freshPair srcRange t :: acc)
      | [] => parseBlameGo srcRange includeBoundary rest [freshPair srcRange t]

/-- `parse_blame` (`blame.py`), taking the entry stream produced by
`get_blame_transforms` as input. -/
def parseBlame (srcRange : IndexedRange) (entries : List BlameLineProperties)
    (includeBoundary : Bool) : List (IndexedRange × IndexedRange) :=
  parseBlameGo srcRange includeBoundary entries []

/-- The coalescing condition the code actually applies between an entry
and its immediate predecessor in a run: the later entry's header did not
set `starts_seq`, the filenames agree, and both the source and target
line numbers are contiguous.  (The source commit hash is not compared.) -/
def blameAdj (prev next : BlameLineProperties) : Bool :=
  !next.starts_seq && prev.filename == next.filename
    && next.old_line == prev.old_line + 1 && next.new_line == prev.new_line + 1

/-- The claim's coalescing condition: `blameAdj` plus equality of the
source commit hashes. -/
def blameAdjWithRev (prev next : BlameLineProperties) : Bool :=
  blameAdj prev next && prev.rev == next.rev

/-- Spec-side `parse_blame` loop: decide coalescing by comparing the
current entry against the previous retained entry (`prev?`) with the
relation `adj`, widening the last pair on success and appending a fresh
extent-1 pair otherwise.  This is the claim's phrasing — "two
consecutive attribution entries" — whereas the source compares against
the accumulated pair's `start + extent` arithmetic. -/
def specBlameGo (adj : BlameLineProperties → BlameLineProperties → Bool)
    (srcRange : IndexedRange) (includeBoundary : Bool) :
    Option BlameLineProperties → List BlameLineProperties →
      List (IndexedRange × IndexedRange) → List (IndexedRange × IndexedRange)
  | _, [], acc => acc.reverse
  | prev?, t :: rest, acc =>
    if !includeBoundary && t.is_boundary then
      specBlameGo adj srcRange includeBoundary prev? rest acc
    else
      match prev?, acc with
      | some p, (lastOld, lastNew) :: accTail =>
        if adj p t then
          specBlameGo adj srcRange includeBoundary (some t) rest
            ((⟨lastOld.rev, lastOld.file, lastOld.start, lastOld.extent + 1⟩,
              ⟨lastNew.rev, lastNew.file, lastNew.start, lastNew.extent + 1⟩) :: accTail)
        else
          specBlameGo adj srcRange includeBoundary (some t) rest (freshPair srcRange t :: acc)
      | _, _ =>
        specBlameGo adj srcRange includeBoundary (some t) rest (freshPair srcRange t :: acc)

/-- Spec-side `parse_blame` with coalescing relation `adj`. -/
def specParseBlame (adj : BlameLineProperties → BlameLineProperties → Bool)
    (srcRange : IndexedRange) (entries : List BlameLineProperties)
    (includeBoundary : Bool) : List (IndexedRange × IndexedRange) :=
  specBlameGo adj srcRange includeBoundary none entries []

/-- Relation between the spec-side "previous retained entry" and the
code-side accumulator head: the last pair's ranges end exactly one line
past the previous entry's line numbers, and carry its filename. -/
def blameInv : Option BlameLineProperties → List (IndexedRange × IndexedRange) → Prop
  | none, [] => True
  | some p, (lastOld, lastNew) :: _ =>
    lastOld.file = p.filename ∧ lastOld.start + lastOld.extent = p.old_line + 1
      ∧ lastNew.start + lastNew.extent = p.new_line + 1
  | _, _ => False

/-- `run_blame` (`blame.py`).  The `git blame --porcelain` subprocess
plus `get_blame_transforms` is an oracle argument producing the entry
stream; `include_boundary` is `root_rev is None` as in the source. -/
def runBlame (blameProc : Option String → IndexedRange → List BlameLineProperties)
    (indexedRange : IndexedRange) (rootRev : Option String) :
    List (IndexedRange × IndexedRange) :=
  if indexedRange.extent = 0 then []
  else parseBlame indexedRange (blameProc rootRev indexedRange) rootRev.isNone

/-! ## Hunks and per-hunk planning (`git.py`, `__init__.py`) -/

/-- `DiffLineType` from `git.py`. -/
inductive DiffLineType where
  | add
  | remove
  | context
  deriving DecidableEq, Repr

/-- `Hunk` from `git.py`.  Op contents are the line bytes including the
terminating newline (absent when stripped by a no-newline marker). -/
structure Hunk where
  old_file : Option String
  new_file : Option String
  old_start : Int
  new_start : Int
  ops : List (DiffLineType × String)
  deriving DecidableEq, Repr

/-- The loop of `Hunk.map_lines` (`git.py`): walk the ops, accumulating
the current mapping's extents, and emit a mapping at each context
boundary (and at the end) when it is non-trivial. -/
def mapLinesGo :
    List (DiffLineType × String) → Int → Int → Int → Int → Int → Int →
      List FileLineMapping
  | [], _, _, oldMstart, newMstart, oldExtent, newExtent =>
    if oldExtent ≠ 0 ∨ newExtent ≠ 0 then
      [⟨oldMstart, oldExtent, newMstart, newExtent⟩]
    else []
  | (t, _) :: ops, oldLine, newLine, oldMstart, newMstart, oldExtent, newExtent =>
    match t with
    | .context =>
      (if oldExtent ≠ 0 ∨ newExtent ≠ 0 then
        [⟨oldMstart, oldExtent, newMstart, newExtent⟩]
      else [])
        ++ mapLinesGo ops (oldLine + 1) (newLine + 1) (oldLine + 1) (newLine + 1) 0 0
    | .remove => mapLinesGo ops (oldLine + 1) newLine oldMstart newMstart (oldExtent + 1) newExtent
    | .add => mapLinesGo ops oldLine (newLine + 1) oldMstart newMstart oldExtent (newExtent + 1)

/-- `Hunk.map_lines` (`git.py`). -/
def mapLines (h : Hunk) : List FileLineMapping :=
  mapLinesGo h.ops h.old_start h.new_start h.old_start h.new_start 0 0

/-- The concatenated file-line-mapping stream of a hunk sequence, as
consumed by `_stream_amendments_and_diff_hunks`
(`chain.from_iterable(h.map_lines() for h in diff_hunks)`). -/
def streamMaps (hunks : List Hunk) : List FileLineMapping :=
  (hunks.map mapLines).flatten

/-- The per-edit body of `add_hunk_to_plan` (`git_fold/__init__.py`),
returning the `(indexed_range, replacement)` pairs actually recorded on
the plan for one `(old_range, new_range)` edit.  `blame` stands for
`plan.blame_range` and `content` for `hunk.new_range_content`.

On the multiple-attribution pure-deletion path the source reads
`plan.add_amended_range(partial_target_range, b'')` without `await`
(`git_fold/__init__.py` line 68, unlike the awaited call on line 79):
the coroutine object is discarded unawaited, its body never runs, and
nothing is recorded, which this model reflects by returning `[]` on that
path. -/
def addHunkEdit (blame : IndexedRange → List (IndexedRange × IndexedRange))
    (content : Int → Int → Bytes)
    (oldRange newRange : Option IndexedRange) : List (IndexedRange × Bytes) :=
  match oldRange with
  | none => []
  | some old =>
    if old.extent = 0 then []
    else
      match blame old with
      | [] => []
      | [(targetRange, _)] =>
        let newContent :=
          match newRange with
          | none => ([] : Bytes)
          | some nr => content nr.start nr.extent
        [(targetRange, newContent)]
      | _ :: _ :: _ => []

/-- What the spec says the multi-attribution path records: nothing when
the edit has added lines, and one empty-replacement amendment per
attributed source range otherwise. -/
def specAddHunkEdit (blame : IndexedRange → List (IndexedRange × IndexedRange))
    (content : Int → Int → Bytes)
    (oldRange newRange : Option IndexedRange) : List (IndexedRange × Bytes) :=
  match oldRange with
  | none => []
  | some old =>
    if old.extent = 0 then []
    else
      match blame old with
      | [] => []
      | [(targetRange, _)] =>
        let newContent :=
          match newRange with
          | none => ([] : Bytes)
          | some nr => content nr.start nr.extent
        [(targetRange, newContent)]
      | out1 :: out2 :: outRest =>
        if (match newRange with | some nr => decide (0 < nr.extent) | none => false) then []
        else (out1 :: out2 :: outRest).map (fun p => (p.fst, ([] : Bytes)))

/-! ## Object identifiers (`OID`, `git.py`) -/

/-- `OID_MAX_VALUE` from `git.py`: `2^160 - 1`. -/
def OID_MAX_VALUE : Int := 2 ^ 160 - 1

/-- `OID.__init__` on an `int` argument: valid iff `0 ≤ oid ≤
OID_MAX_VALUE`; the stored value is `numeric`. -/
def mkOIDofInt (n : Int) : Except String Int :=
  if 0 ≤ n ∧ n ≤ OID_MAX_VALUE then .ok n else .error "Invalid OID"

/-- Lowercase hex digit for a value `< 16` (as `%x` formatting emits). -/
def hexChar (d : Nat) : Char :=
  if d < 10 then Char.ofNat (48 + d) else Char.ofNat (87 + d)

/-- The `k` least-significant base-16 digits of `n`, most significant
first (zero padded), so that for `n < 16^k` this is exactly the digit
string `%0{k}x` produces. -/
def padHexDigits : Nat → Nat → List Nat
  | 0, _ => []
  | k + 1, n => padHexDigits k (n / 16) ++ [n % 16]

/-- `OID.__str__` (`git.py`): `f'{numeric:040x}'`, for in-range values.
Python strings are modelled as their character sequences. -/
def oidStr (n : Nat) : List Char :=
  (padHexDigits 40 n).map hexChar

/-- Numeric value of a hex digit character (as `int(_, 16)` decodes one
digit; uppercase also accepted). -/
def hexVal (c : Char) : Option Nat :=
  if 48 ≤ c.toNat ∧ c.toNat ≤ 57 then some (c.toNat - 48)
  else if 97 ≤ c.toNat ∧ c.toNat ≤ 102 then some (c.toNat - 87)
  else if 65 ≤ c.toNat ∧ c.toNat ≤ 70 then some (c.toNat - 55)
  else none

/-- `int(s, 16)` on a plain string of hex digits (the only shape
`OID.__init__` receives from canonical forms): `none` models the
`ValueError` path re-raised as `Invalid OID`. -/
def parseHex (s : List Char) : Option Nat :=
  if s = [] then none
  else
    s.foldl
      (fun acc c =>
        match acc, hexVal c with
        | some a, some d => some (16 * a + d)
        | _, _ => none)
      (some 0)

/-- `OID.__init__` on a string argument: decode base 16 (no range
check on this path in the source). -/
def mkOIDofStr (s : List Char) : Except String Int :=
  match parseHex s with
  | some n => .ok (n : Int)
  | none => .error "Invalid OID"

/-- Value of a most-significant-first base-16 digit string. -/
def fromHexDigits (ds : List Nat) : Nat :=
  ds.foldl (fun a d => 16 * a + d) 0

/-- Lowercase hex digits, for stating the textual-form property. -/
def isLowerHexDigit (c : Char) : Prop :=
  (48 ≤ c.toNat ∧ c.toNat ≤ 57) ∨ (97 ≤ c.toNat ∧ c.toNat ≤ 102)

instance (c : Char) : Decidable (isLowerHexDigit c) := by
  unfold isLowerHexDigit; infer_instance

/-! ## `write_commits` on an empty plan (`amend.py`, `log.py`) -/

/-- `CommitGraph.build_partial` (`log.py`) for the empty root list that
an empty amendment plan produces: the `for root in roots` loop runs zero
times and `add_commits([])` merges the entries parsed from a
`git rev-list --parents --no-walk` invocation over zero commits, which
contributes no entries (this is the reading most favourable to the
claim; the actual subprocess exits non-zero for want of a revision,
raising `Fatal` even earlier). -/
def buildPartialNoRoots (_head : Nat) : CommitGraph := []

/-- `AmendmentPlan.write_commits` → `AmendedBranchBuilder.write/apply`
(`amend.py`) specialised to an empty amendment map: build the partial
graph over no roots, then walk it.  `reverse_topo_ordering` raises
`KeyError` because the head is absent from the empty `child_to_parents`
map; had an ordering been produced, the first `_start_commit_rewrite`
would fail its `assert parent_handles != parents or amendments is not
None` since no parent is rewritten and the commit has no amendments. -/
def writeCommitsEmptyPlan (head : Nat) (fuel : Nat) : Except String Nat :=
  match reverseTopoOrdering (buildPartialNoRoots head) head fuel with
  | none => .error "KeyError: head not in child_to_parents"
  | some _ => .error "AssertionError: parent_handles != parents or amendments is not None"

/-! ## Diff parser (`diff_parser.py`) -/

/-- Character-list prefix test (used to model the anchored regexes of
`diff_parser.py`, which all match at the start of the line). -/
def startsWithL : List Char → List Char → Bool
  | [], _ => true
  | _ :: _, [] => false
  | p :: ps, c :: cs => p == c && startsWithL ps cs

/-- Substring occurrence test over character lists. -/
def hasSubstr (pat : List Char) : List Char → Bool
  | [] => startsWithL pat []
  | c :: cs => startsWithL pat (c :: cs) || hasSubstr pat cs

/-- `DIFF_HEADER = ^diff --git a/.* b/.*`: the line starts with
`diff --git a/` and the rest contains ` b/`. -/
def isDiffHeader (line : String) : Bool :=
  startsWithL "diff --git a/".data line.data
    && hasSubstr " b/".data (line.data.drop 13)

/-- `DIFF_FSTAT = ^(index|similarity index|rename|deleted file|new file) .*`. -/
def isDiffFstat (line : String) : Bool :=
  ["index ", "similarity index ", "rename ", "deleted file ", "new file "].any
    (fun p => startsWithL p.data line.data)

/-- `DIFF_MODE = ^(old|new) mode .*`. -/
def isDiffMode (line : String) : Bool :=
  startsWithL "old mode ".data line.data || startsWithL "new mode ".data line.data

/-- `DIFF_BINARY = ^Binary files .* and .* differ$`: after the
`Binary files ` head the line ends in ` differ` and the part before that
suffix contains ` and `. -/
def isDiffBinary (line : String) : Bool :=
  startsWithL "Binary files ".data line.data
    && (let core := line.data.drop 13
        startsWithL " differ".data.reverse core.reverse
          && hasSubstr " and ".data (core.take (core.length - 7)))

/-- `DIFF_OLD = ^--- ((?P<devnull>/dev/null)|a/(?P<fname>.*))`: `none`
when the regex does not match, `some none` for `/dev/null`, and
`some (some fname)` for an `a/` path (the rest of the line). -/
def matchDiffOld (line : String) : Option (Option String) :=
  if startsWithL "--- ".data line.data then
    let rest := line.data.drop 4
    if startsWithL "/dev/null".data rest then some none
    else if startsWithL "a/".data rest then some (some (String.mk (rest.drop 2)))
    else none
  else none

/-- `DIFF_NEW = ^\+\+\+ ((?P<devnull>/dev/null)|b/(?P<fname>.*))`. -/
def matchDiffNew (line : String) : Option (Option String) :=
  if startsWithL "+++ ".data line.data then
    let rest := line.data.drop 4
    if startsWithL "/dev/null".data rest then some none
    else if startsWithL "b/".data rest then some (some (String.mk (rest.drop 2)))
    else none
  else none

/-- Decimal value of a digit run. -/
def digitsToInt (ds : List Char) : Int :=
  ds.foldl (fun a c => 10 * a + ((c.toNat : Int) - 48)) 0

/-- `HUNK_REGEX = ^@@ -(\d+)(,\d+)? \+(\d+)(,\d+)? @@`, returning
`(old_start, new_start)` (groups 1 and 3, the only ones the parser
uses). -/
def matchHunkHeader (line : String) : Option (Int × Int) :=
  if startsWithL "@@ -".data line.data then
    let rest1 := line.data.drop 4
    let ds1 := rest1.takeWhile Char.isDigit
    let rest2 := rest1.dropWhile Char.isDigit
    if ds1 = [] then none
    else
      let rest3 :=
        match rest2 with
        | ',' :: t =>
          if (t.takeWhile Char.isDigit) = [] then rest2 else t.dropWhile Char.isDigit
        | _ => rest2
      if startsWithL " +".data rest3 then
        let rest4 := rest3.drop 2
        let ds2 := rest4.takeWhile Char.isDigit
        let rest5 := rest4.dropWhile Char.isDigit
        if ds2 = [] then none
        else
          let rest6 :=
            match rest5 with
            | ',' :: t =>
              if (t.takeWhile Char.isDigit) = [] then rest5 else t.dropWhile Char.isDigit
            | _ => rest5
          if startsWithL " @@".data rest6 then some (digitsToInt ds1, digitsToInt ds2)
          else none
      else none
  else none

/-- The mutable `attrs` namespace of the `DiffHeader` state. -/
structure HeaderAttrs where
  old_file : Option String
  old_file_seen : Bool
  new_file : Option String
  new_file_seen : Bool
  deriving DecidableEq, Repr

/-- The mutable `attrs` namespace of the `InHunk` state. -/
structure HunkAttrs where
  old_file : Option String
  new_file : Option String
  old_start : Int
  new_start : Int
  ops : List (DiffLineType × String)
  deriving DecidableEq, Repr

/-- `DiffParseState` plus its per-state attributes (`diff_parser.py`);
the transient `Invalid` state is represented in `StepResult`. -/
inductive ParserState where
  | initial
  | diffHeader (attrs : HeaderAttrs)
  | inHunk (attrs : HunkAttrs)
  deriving DecidableEq, Repr

/-- A fresh `DiffParseResult.for_diff_header()` attrs value. -/
def freshHeaderAttrs : HeaderAttrs := ⟨none, false, none, false⟩

/-- The validation of the `Hunk` constructor (`git.py`): without an old
file every op must be an `Add`, without a new file every op must be a
`Remove` (otherwise `ValueError`). -/
def hunkCtorOk (attrs : HunkAttrs) : Bool :=
  (attrs.old_file.isSome || attrs.ops.all (fun op => op.fst == DiffLineType.add))
    && (attrs.new_file.isSome || attrs.ops.all (fun op => op.fst == DiffLineType.remove))

/-- `Hunk(**attrs.__dict__)`, with the constructor's `ValueError` as
`none`. -/
def mkHunk (attrs : HunkAttrs) : Option Hunk :=
  if hunkCtorOk attrs then
    some ⟨attrs.old_file, attrs.new_file, attrs.old_start, attrs.new_start, attrs.ops⟩
  else none

/-- Result of handling one line: a successor state with an optionally
yielded hunk, the `Invalid` state, or a `ValueError` escaping from the
`Hunk` constructor. -/
inductive StepResult where
  | ok (st : ParserState) (hunk : Option Hunk)
  | invalid
  | ctorError
  deriving Repr

/-- `_handle_initial` (`diff_parser.py`): skip anything before a
`diff --git` header. -/
def handleInitial (line : String) : StepResult :=
  if isDiffHeader line then .ok (.diffHeader freshHeaderAttrs) none else .ok .initial none

/-- `_handle_diff_hunk_start` (`diff_parser.py`). -/
def handleHunkStart (old_file new_file : Option String) (startPair : Int × Int) :
    StepResult :=
  .ok (.inHunk ⟨old_file, new_file, startPair.fst, startPair.snd, []⟩) none

/-- `_handle_diff_header` (`diff_parser.py`). -/
def handleDiffHeader (attrs : HeaderAttrs) (line : String) : StepResult :=
  if isDiffFstat line || isDiffMode line then .ok (.diffHeader attrs) none
  else if isDiffHeader line || isDiffBinary line then .ok (.diffHeader freshHeaderAttrs) none
  else
    match matchDiffOld line with
    | some v =>
      if attrs.old_file.isSome then .invalid
      else .ok (.diffHeader { attrs with old_file := v, old_file_seen := true }) none
    | none =>
      match matchDiffNew line with
      | some v =>
        if attrs.new_file.isSome then .invalid
        else .ok (.diffHeader { attrs with new_file := v, new_file_seen := true }) none
      | none =>
        match matchHunkHeader line with
        | some startPair =>
          if attrs.old_file_seen && attrs.new_file_seen then
            handleHunkStart attrs.old_file attrs.new_file startPair
          else .invalid
        | none => .invalid

/-- `_handle_in_hunk` (`diff_parser.py`). -/
def handleInHunk (attrs : HunkAttrs) (line : String) : StepResult :=
  if isDiffHeader line then
    match mkHunk attrs with
    | none => .ctorError
    | some h => .ok (.diffHeader freshHeaderAttrs) (some h)
  else
    match matchHunkHeader line with
    | some startPair =>
      match mkHunk attrs with
      | none => .ctorError
      | some h =>
        match handleHunkStart attrs.old_file attrs.new_file startPair with
        | .ok st _ => .ok st (some h)
        | r => r
    | none =>
      if line = "" then .ok (.inHunk attrs) none
      else
        match line.data with
        | '\\' :: _ =>
          match attrs.ops.getLast? with
          | none => .invalid
          | some (t, s) =>
            if s.endsWith "\n" then
              .ok (.inHunk { attrs with ops := attrs.ops.dropLast ++ [(t, s.dropRight 1)] })
                none
            else .invalid
        | c :: restChars =>
          let remainder := String.mk restChars ++ "\n"
          let lineType : Option DiffLineType :=
            if c = '+' then some .add
            else if c = '-' then some .remove
            else if c = ' ' then some .context
            else none
          match lineType with
          | none => .invalid
          | some t => .ok (.inHunk { attrs with ops := attrs.ops ++ [(t, remainder)] }) none
        | [] => .invalid

/-- `handle_line_parsing` (`diff_parser.py`): dispatch on the state. -/
def parseStep : ParserState → String → StepResult
  | .initial, line => handleInitial line
  | .diffHeader attrs, line => handleDiffHeader attrs line
  | .inHunk attrs, line => handleInHunk attrs line

/-- Fatal parse outcomes of `parse_diff_hunks` / the `Hunk` constructor. -/
inductive DiffFatal where
  | badLine (lineno : Nat) (context : List String)
  | badEnd (context : List String)
  | noContent (context : List String)
  | hunkCtor
  deriving DecidableEq, Repr

/-- Left-aligned number formatting, `f'{n:<{width}}'`. -/
def padNum (width : Nat) (n : Nat) : String :=
  let s := toString n
  s ++ String.mk (List.replicate (width - s.length) ' ')

/-- `build_context_lines` (`diff_parser.py`): format the slice
`lines[max(line_index-5,0) : line_index+5]`, each entry prefixed by its
1-based line number left-aligned in a field of width
`max(3, len(str(line_index+5)))`.  The result is the list of formatted
lines (joined with newlines in the source). -/
def buildContextLines (lines : List String) (lineIndex : Nat) : List String :=
  let startIndex := lineIndex - 5
  let padding := max 3 (toString (lineIndex + 5)).length
  let slice := (lines.take (lineIndex + 5)).drop startIndex
  ((List.range' startIndex slice.length).zip slice).map
    (fun p => padNum padding (p.fst + 1) ++ " " ++ p.snd)

/-- The window the claim describes for a malformed line: the 5 source
lines before it and the 5 source lines after it. -/
def claimContextWindow (lines : List String) (lineIndex : Nat) : List String :=
  ((lines.take lineIndex).drop (lineIndex - 5)) ++ ((lines.drop (lineIndex + 1)).take 5)

/-- The loop of `DiffParser.parse_diff_hunks` (`diff_parser.py`): feed
each line to the state machine, accumulating yielded hunks;
on `Invalid`, raise `'unexpected diff content at line {line_index+1}'`
with the context window. -/
def parseDiffGo (allLines : List String) :
    ParserState → List Hunk → Nat → List String →
      Except DiffFatal (ParserState × List Hunk)
  | st, acc, _, [] => .ok (st, acc)
  | st, acc, lineIndex, line :: rest =>
    match parseStep st line with
    | .invalid => .error (.badLine (lineIndex + 1) (buildContextLines allLines lineIndex))
    | .ctorError => .error .hunkCtor
    | .ok st2 hunk? =>
      parseDiffGo allLines st2 (acc ++ hunk?.toList) (lineIndex + 1) rest

/-- `DiffParser.parse_diff_hunks` (`diff_parser.py`) on the split lines
of the diff, including the end-of-input handling: ending in `DiffHeader`
is `'unexpected end of diff'`, ending in `Initial` with any non-empty
line is `'unable to locate diff content'`, and ending in `InHunk` emits
the final hunk. -/
def parseDiffHunks (lines : List String) : Except DiffFatal (List Hunk) :=
  match parseDiffGo lines .initial [] 0 lines with
  | .error e => .error e
  | .ok (st, hunks) =>
    match st with
    | .diffHeader _ => .error (.badEnd (buildContextLines lines lines.length))
    | .initial =>
      if lines.any (fun l => l ≠ "") then .error (.noContent (buildContextLines lines 0))
      else .ok hunks
    | .inHunk attrs =>
      match mkHunk attrs with
      | none => .error .hunkCtor
      | some h => .ok (hunks ++ [h])

/-! # Theorems -/

/-! ## Helper lemmas for object identifiers -/

lemma padHexDigits_length (k n : Nat) : (padHexDigits k n).length = k := by
  induction k generalizing n with
  | zero => rfl
  | succ k ih => simp [padHexDigits, ih]

lemma padHexDigits_lt (k n : Nat) : ∀ d ∈ padHexDigits k n, d < 16 := by
  induction k generalizing n with
  | zero => simp [padHexDigits]
  | succ k ih =>
    intro d hd
    simp only [padHexDigits, List.mem_append, List.mem_singleton] at hd
    rcases hd with hd | hd
    · exact ih _ d hd
    · subst hd; exact Nat.mod_lt _ (by norm_num)

lemma fromHexDigits_append_one (xs : List Nat) (d : Nat) :
    fromHexDigits (xs ++ [d]) = 16 * fromHexDigits xs + d := by
  simp [fromHexDigits, List.foldl_append]

lemma fromHexDigits_padHexDigits (k n : Nat) (h : n < 16 ^ k) :
    fromHexDigits (padHexDigits k n) = n := by
  induction k generalizing n with
  | zero =>
    simp only [pow_zero, Nat.lt_one_iff] at h
    simp [padHexDigits, fromHexDigits, h]
  | succ k ih =>
    have hdiv : n / 16 < 16 ^ k := by
      rw [Nat.div_lt_iff_lt_mul (by norm_num : 0 < 16)]
      calc n < 16 ^ (k + 1) := h
        _ = 16 ^ k * 16 := by ring
    have := ih (n / 16) hdiv
    simp only [padHexDigits, fromHexDigits_append_one, this]
    omega

lemma hexVal_hexChar (d : Nat) (h : d < 16) : hexVal (hexChar d) = some d := by
  interval_cases d <;> rfl

lemma hexChar_isLowerHexDigit (d : Nat) (h : d < 16) : isLowerHexDigit (hexChar d) := by
  interval_cases d <;> decide

lemma oidStr_length (n : Nat) : (oidStr n).length = 40 := by
  rw [oidStr, List.length_map, padHexDigits_length]

lemma parseHex_foldl (ds : List Nat) (hds : ∀ d ∈ ds, d < 16) (acc : Nat) :
    (ds.map hexChar).foldl
        (fun acc c =>
          match acc, hexVal c with
          | some a, some d => some (16 * a + d)
          | _, _ => none)
        (some acc)
      = some (ds.foldl (fun a d => 16 * a + d) acc) := by
  induction ds generalizing acc with
  | nil => rfl
  | cons d ds ih =>
    have hd : d < 16 := hds d (by simp)
    simp only [List.map_cons, List.foldl_cons, hexVal_hexChar d hd]
    exact ih (fun x hx => hds x (by simp [hx])) _

/-- **C10.** For every natural `n < 2^160`, `OID(n)` constructs
successfully with numeric value `n`, `str(OID(n))` is a 40-character
string of lowercase hexadecimal digits (zero padded), and constructing
an `OID` from that string yields the same numeric value, so
`OID(str(OID(n))) == OID(n)`. -/
theorem oid_int_roundtrip (n : Nat) (h : n < 2 ^ 160) :
    mkOIDofInt (n : Int) = .ok (n : Int)
      ∧ (oidStr n).length = 40
      ∧ (∀ c ∈ oidStr n, isLowerHexDigit c)
      ∧ mkOIDofStr (oidStr n) = .ok (n : Int) := by
  have h16 : n < 16 ^ 40 := by
    calc n < 2 ^ 160 := h
      _ = 16 ^ 40 := by norm_num
  refine ⟨?_, oidStr_length n, ?_, ?_⟩
  · have h1 : (0 : Int) ≤ (n : Int) := Int.ofNat_nonneg n
    have h2 : (n : Int) ≤ OID_MAX_VALUE := by
      unfold OID_MAX_VALUE
      have : (n : Int) < (2 : Int) ^ 160 := by exact_mod_cast h
      omega
    rw [mkOIDofInt, if_pos ⟨h1, h2⟩]
  · intro c hc
    rw [oidStr, List.mem_map] at hc
    obtain ⟨d, hd, rfl⟩ := hc
    exact hexChar_isLowerHexDigit d (padHexDigits_lt 40 n d hd)
  · have hne : ¬ ((padHexDigits 40 n).map hexChar = []) := by
      intro hcon
      have hlen := padHexDigits_length 40 n
      rw [List.map_eq_nil_iff] at hcon
      rw [hcon] at hlen
      simp at hlen
    rw [mkOIDofStr, parseHex, oidStr, if_neg hne,
      parseHex_foldl (padHexDigits 40 n) (padHexDigits_lt 40 n) 0]
    have hfold : (padHexDigits 40 n).foldl (fun a d => 16 * a + d) 0
        = fromHexDigits (padHexDigits 40 n) := rfl
    rw [hfold, fromHexDigits_padHexDigits 40 n h16]

/-- Witness for C10 at `n = 255`. -/
theorem oid_int_roundtrip_witness :
    (255 : Nat) < 2 ^ 160
      ∧ (mkOIDofInt (255 : Int) = .ok (255 : Int)
          ∧ (oidStr 255).length = 40
          ∧ (∀ c ∈ oidStr 255, isLowerHexDigit c)
          ∧ mkOIDofStr (oidStr 255) = .ok (255 : Int)) :=
  ⟨by norm_num, oid_int_roundtrip 255 (by norm_num)⟩

/-- **C9.** For every indexed range of extent 0 and every root revision
(including none), `run_blame` returns the empty list for every possible
behaviour of the `git blame` subprocess — i.e. without consulting it. -/
theorem run_blame_zero_extent (blameProc : Option String → IndexedRange → List BlameLineProperties)
    (r : IndexedRange) (rootRev : Option String) (h : r.extent = 0) :
    runBlame blameProc r rootRev = [] := by
  simp [runBlame, h]

/-- Witness for C9 at a concrete range and a non-trivial oracle. -/
theorem run_blame_zero_extent_witness :
    (⟨"HEAD", "f", 3, 0⟩ : IndexedRange).extent = 0
      ∧ runBlame (fun _ _ => [⟨"abc", "f", false, 1, 1, true⟩]) ⟨"HEAD", "f", 3, 0⟩ (some "root") = [] :=
  ⟨rfl, run_blame_zero_extent _ ⟨"HEAD", "f", 3, 0⟩ (some "root") rfl⟩

/-- **C7 (counterexample).** On an empty amendment plan with head
`OID = 7`, `write_commits` does not return the head unchanged: the walk
of the empty partial commit graph raises `KeyError` on the head. -/
theorem write_commits_empty_plan_cex :
    writeCommitsEmptyPlan 7 1000 = .error "KeyError: head not in child_to_parents"
      ∧ ∀ oid, writeCommitsEmptyPlan 7 1000 ≠ .ok oid := by
  refine ⟨rfl, ?_⟩
  intro oid hcon
  rw [show writeCommitsEmptyPlan 7 1000 = .error "KeyError: head not in child_to_parents" from rfl] at hcon
  exact Except.noConfusion hcon

/-- **C7 (amended).** For every head OID and any amount of fuel, calling
`write_commits` on a plan with no amendments raises (the head is absent
from the empty partial commit graph, so `reverse_topo_ordering` raises
`KeyError`); it never returns an OID.  The unchanged-head behaviour
belongs to `suggest_basic`, which returns early when `has_amendments()`
is false, without calling `write_commits`. -/
theorem write_commits_empty_plan_raises (head fuel : Nat) :
    writeCommitsEmptyPlan head fuel = .error "KeyError: head not in child_to_parents" := by
  simp [writeCommitsEmptyPlan, reverseTopoOrdering, buildPartialNoRoots, lookupG]

/-- **C5.** Evaluation of the multi-attribution pure-deletion path of
`add_hunk_to_plan` (`git_fold/__init__.py`) at a failing input: the old
range exists with extent 3, attribution fans out to two source commits,
and the hunk has no added lines (`new_range` is `None`).  The claim (and
the spec) say one empty-replacement amendment is recorded per attributed
source range, but the code records nothing: the
`plan.add_amended_range(...)` coroutine on this path is never awaited. -/
theorem add_hunk_multi_deletion_dropped :
    addHunkEdit
        (fun _ => [(⟨"c1", "f", 1, 2⟩, ⟨"H", "f", 1, 2⟩), (⟨"c2", "f", 9, 1⟩, ⟨"H", "f", 3, 1⟩)])
        (fun _ _ => []) (some ⟨"H", "f", 1, 3⟩) none = []
      ∧ specAddHunkEdit
          (fun _ => [(⟨"c1", "f", 1, 2⟩, ⟨"H", "f", 1, 2⟩), (⟨"c2", "f", 9, 1⟩, ⟨"H", "f", 3, 1⟩)])
          (fun _ _ => []) (some ⟨"H", "f", 1, 3⟩) none
        = [(⟨"c1", "f", 1, 2⟩, []), (⟨"c2", "f", 9, 1⟩, [])] :=
  ⟨rfl, rfl⟩

/-! ## `replace_lines` characterization (C6) -/

lemma bytesLtb_irrefl : ∀ l : Bytes, bytesLtb l l = false
  | [] => rfl
  | a :: as => by simp [bytesLtb, bytesLtb_irrefl as]

lemma recLtb_irrefl (a : AmendmentRecord) : recLtb a a = false := by
  simp [recLtb, bytesLtb_irrefl]

lemma recLtb_true_start_le {a b : AmendmentRecord} (h : recLtb a b = true) :
    a.start ≤ b.start := by
  unfold recLtb at h
  simp only [Bool.or_eq_true, Bool.and_eq_true, decide_eq_true_eq, beq_iff_eq] at h
  rcases h with h | ⟨h, _⟩ <;> omega

lemma recLtb_false_start_le {a b : AmendmentRecord} (h : recLtb a b = false) :
    b.start ≤ a.start := by
  by_contra hcon
  push_neg at hcon
  have : recLtb a b = true := by
    unfold recLtb
    simp only [Bool.or_eq_true, Bool.and_eq_true, decide_eq_true_eq, beq_iff_eq]
    exact Or.inl hcon
  rw [h] at this
  exact Bool.noConfusion this

lemma takeWhile_append_eq (f : AmendmentRecord → Bool) :
    ∀ (P S : List AmendmentRecord), (∀ q ∈ P, f q = true) →
      (∀ x, S.head? = some x → f x = false) → (P ++ S).takeWhile f = P := by
  intro P
  induction P with
  | nil =>
    intro S _ hS
    cases S with
    | nil => rfl
    | cons x S' =>
      simp only [List.nil_append, List.takeWhile_cons, hS x rfl]
      rfl
  | cons p P' ih =>
    intro S hP hS
    have hp : f p = true := hP p (by simp)
    simp only [List.cons_append, List.takeWhile_cons, hp, if_true]
    rw [ih S (fun q hq => hP q (by simp [hq])) hS]

lemma insertAt_append :
    ∀ (P S : List AmendmentRecord) (x : AmendmentRecord),
      insertAt (P ++ S) P.length x = P ++ x :: S := by
  intro P
  induction P with
  | nil => intro S x; cases S <;> rfl
  | cons p P' ih =>
    intro S x
    show p :: insertAt (P' ++ S) P'.length x = p :: (P' ++ x :: S)
    rw [ih S x]

lemma replaceLines_reduce_nil (P : List AmendmentRecord) (s e : Int) (r : Bytes)
    (hP : ∀ q ∈ P, recLtb q ⟨s, e, r⟩ = true) :
    replaceLines P s e r =
      if priorCheck P s then .error "overlapping amendments requested"
      else .ok (P ++ [⟨s, e, r⟩]) := by
  have hbis : bisectLeft P ⟨s, e, r⟩ = P.length := by
    unfold bisectLeft
    have := takeWhile_append_eq (fun q => recLtb q ⟨s, e, r⟩) P [] hP (by intro x hx; cases hx)
    rw [List.append_nil] at this
    rw [this]
  have hget : P.get? P.length = none := by
    rw [List.get?_eq_none]
  have hins : insertAt P P.length ⟨s, e, r⟩ = P ++ [⟨s, e, r⟩] := by
    have := insertAt_append P [] ⟨s, e, r⟩
    rwa [List.append_nil] at this
  unfold replaceLines
  dsimp only
  rw [hbis, hget, hins]
  rcases List.eq_nil_or_concat P with hPnil | ⟨P', pr, hPsplit⟩
  · subst hPnil
    rfl
  · rw [List.concat_eq_append] at hPsplit
    subst hPsplit
    have hlen : (P' ++ [pr]).length = P'.length + 1 := by simp
    have hgetprior : (P' ++ [pr]).get? ((P' ++ [pr]).length - 1) = some pr := by
      rw [hlen, Nat.add_sub_cancel, List.get?_append_right (le_refl _), Nat.sub_self]
      rfl
    have hne : ((P' ++ [pr]).length != 0) = true := by
      rw [hlen]; simp
    rw [hgetprior, hne, Bool.true_and]
    have hpc : priorCheck (P' ++ [pr]) s = decide (pr.start + pr.extent > s) := by
      unfold priorCheck
      rw [List.getLast?_concat]
    rw [hpc]

lemma replaceLines_reduce_cons (P : List AmendmentRecord) (next : AmendmentRecord)
    (S' : List AmendmentRecord) (s e : Int) (r : Bytes)
    (hP : ∀ q ∈ P, recLtb q ⟨s, e, r⟩ = true)
    (hnext : recLtb next ⟨s, e, r⟩ = false) :
    replaceLines (P ++ next :: S') s e r =
      if priorCheck P s then .error "overlapping amendments requested"
      else if (⟨s, e, r⟩ : AmendmentRecord) = next then .ok (P ++ next :: S')
      else if s + e > next.start then .error "overlapping amendments requested"
      else .ok (P ++ ⟨s, e, r⟩ :: next :: S') := by
  have hbis : bisectLeft (P ++ next :: S') ⟨s, e, r⟩ = P.length := by
    unfold bisectLeft
    rw [takeWhile_append_eq _ P (next :: S') hP
      (by intro x hx; rw [List.head?_cons] at hx; cases hx; exact hnext)]
  have hget : (P ++ next :: S').get? P.length = some next := by
    rw [List.get?_append_right (le_refl P.length), Nat.sub_self]
    rfl
  have hins : insertAt (P ++ next :: S') P.length ⟨s, e, r⟩ = P ++ ⟨s, e, r⟩ :: next :: S' :=
    insertAt_append P (next :: S') ⟨s, e, r⟩
  unfold replaceLines
  dsimp only
  rw [hbis, hget, hins]
  rcases List.eq_nil_or_concat P with hPnil | ⟨P', pr, hPsplit⟩
  · subst hPnil
    rw [show priorCheck ([] : List AmendmentRecord) s = false from rfl,
      show (([] : List AmendmentRecord).length != 0) = false from rfl, Bool.false_and]
  · rw [List.concat_eq_append] at hPsplit
    subst hPsplit
    have hlen : (P' ++ [pr]).length = P'.length + 1 := by simp
    have hgetprior : ((P' ++ [pr]) ++ next :: S').get? ((P' ++ [pr]).length - 1) = some pr := by
      rw [hlen, Nat.add_sub_cancel, List.append_assoc, List.get?_append_right (le_refl _),
        Nat.sub_self]
      rfl
    have hne : ((P' ++ [pr]).length != 0) = true := by
      rw [hlen]; simp
    rw [hgetprior, hne, Bool.true_and]
    have hpc : priorCheck (P' ++ [pr]) s = decide (pr.start + pr.extent > s) := by
      unfold priorCheck
      rw [List.getLast?_concat]
    rw [hpc]

lemma dropWhile_head_false (f : AmendmentRecord → Bool) :
    ∀ (l : List AmendmentRecord) (x : AmendmentRecord),
      (l.dropWhile f).head? = some x → f x = false := by
  intro l
  induction l with
  | nil => intro x h; cases h
  | cons a as ih =>
    intro x h
    rw [List.dropWhile_cons] at h
    by_cases ha : f a = true
    · rw [if_pos ha] at h
      exact ih x h
    · rw [if_neg ha] at h
      rw [List.head?_cons, Option.some_inj] at h
      subst h
      exact Bool.not_eq_true _ |>.mp ha

lemma priorCheck_false_all_le (P : List AmendmentRecord) (s : Int)
    (hsepP : sepList P) (hext : ∀ q ∈ P, 1 ≤ q.extent)
    (hpc : priorCheck P s = false) : ∀ q ∈ P, q.start + q.extent ≤ s := by
  intro q hq
  rcases List.eq_nil_or_concat P with h | ⟨P', pr, h⟩
  · subst h; cases hq
  · rw [List.concat_eq_append] at h
    subst h
    unfold priorCheck at hpc
    rw [List.getLast?_concat] at hpc
    have hprs : pr.start + pr.extent ≤ s := by
      simpa using hpc
    rcases List.mem_append.mp hq with hq' | hq'
    · rw [sepList, List.pairwise_append] at hsepP
      have h1 := hsepP.2.2 q hq' pr (by simp)
      have h2 := hext pr (by simp)
      omega
    · rw [List.mem_singleton] at hq'
      subst hq'
      exact hprs

lemma priorCheck_true_exists (P : List AmendmentRecord) (s : Int)
    (hpc : priorCheck P s = true) :
    ∃ pr, pr ∈ P ∧ pr.start + pr.extent > s := by
  unfold priorCheck at hpc
  rcases List.eq_nil_or_concat P with h | ⟨P', pr, h⟩
  · subst h; cases hpc
  · rw [List.concat_eq_append] at h
    subst h
    rw [List.getLast?_concat] at hpc
    exact ⟨pr, by simp, by simpa using hpc⟩

/-- **C6 (counterexample).** `replace_lines` raises the
overlapping-amendments error for a new record `(6, 0, ..)` against a
stored record `(5, 2, ..)` although the half-open ranges `[6, 6)` and
`[5, 7)` do not intersect: the error is not equivalent to a range
overlap once extent-0 records are allowed. -/
theorem replace_lines_cex :
    replaceLines [⟨5, 2, [0]⟩] 6 0 [1] = .error "overlapping amendments requested"
      ∧ ¬ intervalsIntersect 6 0 5 2 := by
  refine ⟨rfl, ?_⟩
  rintro ⟨x, hx⟩
  omega

/-- **C1 (counterexample).** For the abutting (sorted, pairwise
non-overlapping) amendments `(1,1)` and `(2,1)` on a three-line blob,
the streaming rewrite advances its amendment pointer at most once per
line and so never reaches the second amendment at its start line: it
emits the first replacement, then passes line 2 through verbatim and
never emits the second replacement, while the claim's description
demands both replacements with lines 1 and 2 suppressed. -/
theorem blob_write_cex :
    sepList [⟨1, 1, [100]⟩, ⟨2, 1, [200]⟩]
      ∧ blobWrite [⟨1, 1, [100]⟩, ⟨2, 1, [200]⟩] [[10], [20], [30]] = [[100], [20], [30]]
      ∧ specWrite [⟨1, 1, [100]⟩, ⟨2, 1, [200]⟩] [[10], [20], [30]] = [[100], [200], [30]] := by
  refine ⟨?_, rfl, rfl⟩
  unfold sepList
  decide

/-- **C3 (counterexample).** In the partial graph with
`0 → [1, 2]`, `1 → [2]`, `2 → []` (commit 2 is both a direct parent of
the head 0 and a parent of 1), `reverse_topo_ordering(0)` lists commit 2
twice — the stack holds two first-visit frames for 2 and neither pop
checks the visited set — so a reachable commit does not appear exactly
once. -/
theorem reverse_topo_cex :
    reverseTopoOrdering [(0, [1, 2]), (1, [2]), (2, [])] 0 20 = some [2, 1, 2, 0]
      ∧ ([2, 1, 2, 0] : List Nat).count 2 ≠ 1 := by
  exact ⟨rfl, by decide⟩

/-! ## Invariants of the reverse-topological DFS (C3) -/

lemma reaches_isSome (g : CommitGraph) (a x : Nat) (h : Reaches g a x) :
    (lookupG g a).isSome := by
  cases h with
  | refl c hc => exact hc
  | step c p x ps hc hp hx => rw [hc]; rfl

lemma append_singleton_cases (A : List Nat) (c : Nat) (l1 : List Nat) (x : Nat)
    (l2 : List Nat) (h : A ++ [c] = l1 ++ x :: l2) :
    (l1 = A ∧ x = c ∧ l2 = []) ∨ ∃ l2', A = l1 ++ x :: l2' ∧ l2 = l2' ++ [c] := by
  rcases List.eq_nil_or_concat l2 with h2 | ⟨l2', d, h2⟩
  · subst h2
    obtain ⟨hA, hcx⟩ := List.append_inj' h rfl
    rw [List.cons.injEq] at hcx
    exact Or.inl ⟨hA.symm, hcx.1.symm, rfl⟩
  · rw [List.concat_eq_append] at h2
    subst h2
    rw [show l1 ++ x :: (l2' ++ [d]) = (l1 ++ x :: l2') ++ [d] by simp] at h
    obtain ⟨hA, hcd⟩ := List.append_inj' h rfl
    rw [List.cons.injEq] at hcd
    exact Or.inr ⟨l2', hA, by rw [hcd.1]⟩

lemma childFrames_mem (g : CommitGraph) (visited parents : List Nat) :
    ∀ fr ∈ childFrames g visited parents,
      fr.2.2 = false ∧ lookupG g fr.1 = some fr.2.1 ∧ fr.1 ∈ parents := by
  intro fr hfr
  rw [childFrames, List.mem_filterMap] at hfr
  obtain ⟨p, hp, hf⟩ := hfr
  by_cases hv : p ∈ visited
  · rw [if_pos hv] at hf
    exact Option.noConfusion hf
  · rw [if_neg hv] at hf
    cases hlk : lookupG g p with
    | none =>
      rw [hlk] at hf
      exact Option.noConfusion hf
    | some gps =>
      rw [hlk] at hf
      rw [Option.some.injEq] at hf
      subst hf
      exact ⟨rfl, hlk, hp⟩

lemma childFrames_complete (g : CommitGraph) (visited parents : List Nat)
    (p : Nat) (hp : p ∈ parents) (hv : p ∉ visited) (gps : List Nat)
    (hlk : lookupG g p = some gps) :
    (p, gps, false) ∈ childFrames g visited parents := by
  rw [childFrames, List.mem_filterMap]
  exact ⟨p, hp, by rw [if_neg hv, hlk]⟩

lemma rtGo_invariant (g : CommitGraph) (fuel : Nat) :
    ∀ (stack : List (Nat × List Nat × Bool)) (visited ordering out : List Nat),
      rtGo g fuel stack visited ordering = some out →
      (∀ f ∈ stack, lookupG g f.1 = some f.2.1) →
      (∀ c, c ∈ visited ↔ c ∈ ordering) →
      (∀ c ∈ ordering, (lookupG g c).isSome) →
      OrdProp g ordering →
      TProp g stack visited →
      (∀ v ∈ visited, ∀ x, Reaches g v x → x ∈ visited) →
      OrdProp g out ∧ (∀ c ∈ out, (lookupG g c).isSome)
        ∧ ∀ x, (x ∈ visited ∨ ∃ f ∈ stack, Reaches g f.1 x) → x ∈ out := by
  induction fuel with
  | zero =>
    intro stack visited ordering out hrun
    rw [rtGo] at hrun
    exact Option.noConfusion hrun
  | succ fuel ih =>
    intro stack visited ordering out hrun h1 h2 h3 hOrd hT hcl
    cases stack with
    | nil =>
      rw [rtGo] at hrun
      rw [Option.some.injEq] at hrun
      subst hrun
      refine ⟨hOrd, h3, ?_⟩
      intro x hx
      rcases hx with hx | ⟨f, hf, _⟩
      · exact (h2 x).mp hx
      · exact absurd hf (List.not_mem_nil f)
    | cons fr rest =>
      obtain ⟨child, parents, hasRecursed⟩ := fr
      have hchild : lookupG g child = some parents :=
        h1 (child, parents, hasRecursed) (List.mem_cons_self _ _)
      cases hasRecursed with
      | true =>
        rw [rtGo, if_pos rfl] at hrun
        have hpvis : ∀ p ∈ parents, (lookupG g p).isSome → p ∈ visited := by
          intro p hp hps
          rcases hT [] (child, parents, true) rest rfl rfl p hp hps with h | ⟨f2, hf2, _⟩
          · exact h
          · exact absurd hf2 (List.not_mem_nil f2)
        have hclosed : ∀ x, Reaches g child x → x ∈ child :: visited := by
          intro x hr
          cases hr with
          | refl c hc => exact List.mem_cons_self _ _
          | step c p x ps hc hp hx =>
            rw [hchild, Option.some.injEq] at hc
            subst hc
            have hpin : (lookupG g p).isSome := reaches_isSome g p x hx
            exact List.mem_cons_of_mem _ (hcl p (hpvis p hp hpin) x hx)
        have h1' : ∀ f ∈ rest, lookupG g f.1 = some f.2.1 := by
          intro f hf
          exact h1 f (List.mem_cons_of_mem _ hf)
        have h2' : ∀ c, c ∈ child :: visited ↔ c ∈ ordering ++ [child] := by
          intro c
          rw [List.mem_cons, List.mem_append, List.mem_singleton, h2 c]
          tauto
        have h3' : ∀ c ∈ ordering ++ [child], (lookupG g c).isSome := by
          intro c hcm
          rcases List.mem_append.mp hcm with hcm | hcm
          · exact h3 c hcm
          · rw [List.mem_singleton] at hcm
            subst hcm
            rw [hchild]
            rfl
        have hOrd' : OrdProp g (ordering ++ [child]) := by
          intro l1 c l2 hdec ps hlkc p hp hpin
          rcases append_singleton_cases ordering child l1 c l2 hdec with
            ⟨rfl, rfl, rfl⟩ | ⟨l2', hord, rfl⟩
          · rw [hchild, Option.some.injEq] at hlkc
            subst hlkc
            exact (h2 p).mp (hpvis p hp hpin)
          · exact hOrd l1 c l2' hord ps hlkc p hp hpin
        have hT' : TProp g rest (child :: visited) := by
          intro A f B hdec hflag p hp hpin
          have hdec2 : (child, parents, true) :: rest
              = ((child, parents, true) :: A) ++ f :: B := by
            rw [hdec]
            rfl
          rcases hT ((child, parents, true) :: A) f B hdec2 hflag p hp hpin with
            h | ⟨f2, hf2, hf2n⟩
          · exact Or.inl (List.mem_cons_of_mem _ h)
          · rcases List.mem_cons.mp hf2 with rfl | hf2'
            · have hcp : child = p := hf2n
              subst hcp
              exact Or.inl (List.mem_cons_self _ _)
            · exact Or.inr ⟨f2, hf2', hf2n⟩
        have hcl' : ∀ v ∈ child :: visited, ∀ x, Reaches g v x → x ∈ child :: visited := by
          intro v hv x hr
          rcases List.mem_cons.mp hv with rfl | hv'
          · exact hclosed x hr
          · exact List.mem_cons_of_mem _ (hcl v hv' x hr)
        obtain ⟨P1, P2, P3⟩ :=
          ih rest (child :: visited) (ordering ++ [child]) out hrun h1' h2' h3' hOrd' hT' hcl'
        refine ⟨P1, P2, ?_⟩
        intro x hx
        rcases hx with hx | ⟨f, hf, hr⟩
        · exact P3 x (Or.inl (List.mem_cons_of_mem _ hx))
        · rcases List.mem_cons.mp hf with rfl | hf'
          · exact P3 x (Or.inl (hclosed x hr))
          · exact P3 x (Or.inr ⟨f, hf', hr⟩)
      | false =>
        rw [rtGo, if_neg (by simp)] at hrun
        have h1' : ∀ f ∈ childFrames g visited parents ++ (child, parents, true) :: rest,
            lookupG g f.1 = some f.2.1 := by
          intro f hf
          rcases List.mem_append.mp hf with hf | hf
          · exact (childFrames_mem g visited parents f hf).2.1
          · rcases List.mem_cons.mp hf with rfl | hf'
            · exact hchild
            · exact h1 f (List.mem_cons_of_mem _ hf')
        have hT' : TProp g (childFrames g visited parents ++ (child, parents, true) :: rest)
            visited := by
          intro A f B hdec hflag p hp hpin
          have htop : A = childFrames g visited parents → f = (child, parents, true) →
              p ∈ visited ∨ ∃ f2 ∈ A, f2.1 = p := by
            intro hA hfeq
            by_cases hv : p ∈ visited
            · exact Or.inl hv
            · rcases Option.isSome_iff_exists.mp hpin with ⟨gps, hlk⟩
              refine Or.inr ⟨(p, gps, false), ?_, rfl⟩
              rw [hA]
              exact childFrames_complete g visited parents p (by rw [hfeq] at hp; exact hp)
                hv gps hlk
          rcases List.append_eq_append_iff.mp hdec with ⟨a', hA, hmid⟩ | ⟨c', hframes, hmid⟩
          · cases a' with
            | nil =>
              rw [List.nil_append, List.cons.injEq] at hmid
              rw [List.append_nil] at hA
              exact htop hA hmid.1.symm
            | cons m a'' =>
              rw [List.cons_append, List.cons.injEq] at hmid
              obtain ⟨hm, hrest⟩ := hmid
              rcases hT ((child, parents, false) :: a'') f B
                  (by rw [hrest, List.cons_append]) hflag p hp hpin
                with h | ⟨f2, hf2, hf2n⟩
              · exact Or.inl h
              · rcases List.mem_cons.mp hf2 with rfl | hf2'
                · refine Or.inr ⟨(child, parents, true), ?_, hf2n⟩
                  rw [hA, ← hm]
                  exact List.mem_append_right _ (List.mem_cons_self _ _)
                · refine Or.inr ⟨f2, ?_, hf2n⟩
                  rw [hA, ← hm]
                  exact List.mem_append_right _ (List.mem_cons_of_mem _ hf2')
          · cases c' with
            | nil =>
              rw [List.append_nil] at hframes
              rw [List.nil_append, List.cons.injEq] at hmid
              exact htop hframes.symm hmid.1
            | cons m c'' =>
              rw [List.cons_append, List.cons.injEq] at hmid
              have hfin : f ∈ childFrames g visited parents := by
                rw [hframes, hmid.1]
                exact List.mem_append_right _ (List.mem_cons_self _ _)
              have := (childFrames_mem g visited parents f hfin).1
              rw [hflag] at this
              exact Bool.noConfusion this
        obtain ⟨P1, P2, P3⟩ :=
          ih (childFrames g visited parents ++ (child, parents, true) :: rest)
            visited ordering out hrun h1' h2 h3 hOrd hT' hcl
        refine ⟨P1, P2, ?_⟩
        intro x hx
        rcases hx with hx | ⟨f, hf, hr⟩
        · exact P3 x (Or.inl hx)
        · rcases List.mem_cons.mp hf with rfl | hf'
          · exact P3 x (Or.inr ⟨(child, parents, true),
              List.mem_append_right _ (List.mem_cons_self _ _), hr⟩)
          · exact P3 x (Or.inr ⟨f,
              List.mem_append_right _ (List.mem_cons_of_mem _ hf'), hr⟩)

/-- **C3 (amended).** Whenever `reverse_topo_ordering` returns a listing
(for any fuel), the listing contains every commit reachable from the
head through in-graph parent links at least once (possibly more than
once), contains only commits present in the partial map (commits absent
from the map are skipped), and wherever a commit occurs each of its
in-graph parents has already occurred strictly earlier. -/
theorem reverse_topo_ordering_properties (g : CommitGraph) (head fuel : Nat)
    (out : List Nat) (hrun : reverseTopoOrdering g head fuel = some out) :
    (∀ c, Reaches g head c → c ∈ out)
      ∧ (∀ c ∈ out, (lookupG g c).isSome)
      ∧ OrdProp g out := by
  rw [reverseTopoOrdering] at hrun
  cases hlk : lookupG g head with
  | none =>
    rw [hlk] at hrun
    exact Option.noConfusion hrun
  | some ps =>
    rw [hlk] at hrun
    have hT0 : TProp g [(head, ps, false)] [] := by
      intro A f B hdec hflag p hp hpin
      cases A with
      | nil =>
        rw [List.nil_append, List.cons.injEq] at hdec
        rw [← hdec.1] at hflag
        exact Bool.noConfusion hflag
      | cons a A' =>
        rw [List.cons_append, List.cons.injEq] at hdec
        exact absurd hdec.2.symm (by simp)
    obtain ⟨P1, P2, P3⟩ := rtGo_invariant g fuel [(head, ps, false)] [] [] out hrun
      (by
        intro f hf
        rw [List.mem_singleton] at hf
        subst hf
        exact hlk)
      (by simp)
      (by simp)
      (by
        intro l1 c l2 hdec
        exact absurd hdec (by simp))
      hT0
      (by simp)
    refine ⟨?_, P2, P1⟩
    intro c hc
    exact P3 c (Or.inr ⟨(head, ps, false), List.mem_singleton.mpr rfl, hc⟩)

/-- Witness for C3 on the diamond graph `0 → [1, 2]`, `1 → [3]`,
`2 → [3]`, `3 → []`. -/
theorem reverse_topo_ordering_properties_witness :
    reverseTopoOrdering [(0, [1, 2]), (1, [3]), (2, [3]), (3, [])] 0 20
        = some [3, 1, 2, 0]
      ∧ ((∀ c, Reaches [(0, [1, 2]), (1, [3]), (2, [3]), (3, [])] 0 c → c ∈ [3, 1, 2, 0])
        ∧ (∀ c ∈ ([3, 1, 2, 0] : List Nat),
            (lookupG [(0, [1, 2]), (1, [3]), (2, [3]), (3, [])] c).isSome)
        ∧ OrdProp [(0, [1, 2]), (1, [3]), (2, [3]), (3, [])] [3, 1, 2, 0]) :=
  ⟨rfl, reverse_topo_ordering_properties [(0, [1, 2]), (1, [3]), (2, [3]), (3, [])]
    0 20 [3, 1, 2, 0] rfl⟩

/-! ## Re-basing amendments through a diff (C2) -/

lemma offsetBefore_append (p q : List FileLineMapping) (s : Int) :
    offsetBefore (p ++ q) s = offsetBefore p s + offsetBefore q s := by
  unfold offsetBefore
  rw [List.filter_append, List.map_append, List.sum_append]

lemma offsetBefore_all (l : List FileLineMapping) (s : Int)
    (h : ∀ m ∈ l, m.old_start + m.old_extent ≤ s) :
    offsetBefore l s = sumDelta l := by
  unfold offsetBefore sumDelta
  rw [List.filter_eq_self.mpr]
  intro m hm
  simpa using h m hm

lemma offsetBefore_none (l : List FileLineMapping) (s : Int)
    (h : ∀ m ∈ l, s < m.old_start + m.old_extent) :
    offsetBefore l s = 0 := by
  unfold offsetBefore
  rw [List.filter_eq_nil_iff.mpr]
  · rfl
  · intro m hm
    simpa using h m hm

lemma map_sub_sum : ∀ L : List FileLineMapping,
    ((L.map (fun m => m.new_extent - m.old_extent)).sum : Int)
      = (L.map (fun m => m.new_extent)).sum - (L.map (fun m => m.old_extent)).sum
  | [] => by simp
  | m :: rest => by
    simp only [List.map_cons, List.sum_cons, map_sub_sum rest]
    ring

lemma offsetBefore_ge (l : List FileLineMapping) (s : Int)
    (hne : ∀ m ∈ l, 0 ≤ m.new_extent) :
    -sumOld (l.filter (fun m => m.old_start + m.old_extent ≤ s)) ≤ offsetBefore l s := by
  unfold offsetBefore sumOld
  rw [map_sub_sum]
  have h0 : (0 : Int)
      ≤ ((l.filter (fun m => m.old_start + m.old_extent ≤ s)).map
          (fun m => m.new_extent)).sum := by
    apply List.sum_nonneg
    intro x hx
    rcases List.mem_map.mp hx with ⟨m, hm, rfl⟩
    exact hne m (List.mem_of_mem_filter hm)
  omega

lemma sumOld_filter_bound :
    ∀ (maps : List FileLineMapping) (lo hi : Int),
      maps.Pairwise (fun m1 m2 => m1.old_start + m1.old_extent ≤ m2.old_start) →
      (∀ m ∈ maps, 0 ≤ m.old_extent) →
      (∀ m ∈ maps, lo ≤ m.old_start) →
      lo ≤ hi →
      sumOld (maps.filter (fun m => m.old_start + m.old_extent ≤ hi)) ≤ hi - lo := by
  intro maps
  induction maps with
  | nil =>
    intro lo hi _ _ _ hlohi
    simp only [List.filter_nil, sumOld, List.map_nil, List.sum_nil]
    omega
  | cons m rest ih =>
    intro lo hi hsort hext hlo hlohi
    rw [List.pairwise_cons] at hsort
    rw [List.filter_cons]
    by_cases hc : m.old_start + m.old_extent ≤ hi
    · rw [if_pos (by simpa using hc)]
      have hrest := ih (m.old_start + m.old_extent) hi hsort.2
        (fun x hx => hext x (List.mem_cons_of_mem _ hx)) hsort.1 hc
      have hm := hlo m (List.mem_cons_self _ _)
      simp only [sumOld, List.map_cons, List.sum_cons] at *
      omega
    · rw [if_neg (by simpa using hc)]
      have hnil : rest.filter (fun m2 => m2.old_start + m2.old_extent ≤ hi) = [] := by
        rw [List.filter_eq_nil_iff]
        intro x hx
        have h1 := hsort.1 x hx
        have h2 := hext x (List.mem_cons_of_mem _ hx)
        simp only [decide_eq_true_eq]
        omega
      rw [hnil]
      simp only [sumOld, List.map_nil, List.sum_nil]
      omega

lemma replaceLines_append (acc : List AmendmentRecord) (s e : Int) (r : Bytes)
    (hexta : ∀ q ∈ acc, 1 ≤ q.extent)
    (hend : ∀ q ∈ acc, q.start + q.extent ≤ s) :
    replaceLines acc s e r = .ok (acc ++ [⟨s, e, r⟩]) := by
  have hall : ∀ q ∈ acc, recLtb q ⟨s, e, r⟩ = true := by
    intro q hq
    have h1 := hexta q hq
    have h2 := hend q hq
    unfold recLtb
    simp only [Bool.or_eq_true, Bool.and_eq_true, decide_eq_true_eq, beq_iff_eq]
    left
    show q.start < s
    omega
  rw [replaceLines_reduce_nil acc s e r hall]
  have hpc : priorCheck acc s = false := by
    unfold priorCheck
    cases hlast : acc.getLast? with
    | none => rfl
    | some pr =>
      have hpr : pr ∈ acc := by
        have h1 : pr ∈ acc.getLast? := hlast
        rcases List.mem_getLast?_eq_getLast h1 with ⟨hne, rfl⟩
        exact List.getLast_mem hne
      simp only [decide_eq_false_iff_not, not_lt]
      exact hend pr hpr
  rw [hpc]
  rfl

lemma skipMaps_no_overlap (a : AmendmentRecord) (he : 1 ≤ a.extent) :
    ∀ (maps : List FileLineMapping) (offset : Int),
      maps.Pairwise (fun m1 m2 => m1.old_start + m1.old_extent ≤ m2.old_start) →
      (∀ m ∈ maps, 0 ≤ m.old_extent) →
      (∀ m ∈ maps, ¬ mapOverlap a m) →
      ∃ pre maps2, maps = pre ++ maps2
        ∧ (∀ m ∈ pre, m.old_start + m.old_extent ≤ a.start)
        ∧ (∀ m ∈ maps2, a.start + a.extent ≤ m.old_start)
        ∧ skipMaps a maps offset = .ok (maps2, offset + sumDelta pre) := by
  intro maps
  induction maps with
  | nil =>
    intro offset _ _ _
    refine ⟨[], [], rfl, by simp, by simp, ?_⟩
    simp [skipMaps, sumDelta]
  | cons m rest ih =>
    intro offset hsort hext hno
    rw [List.pairwise_cons] at hsort
    by_cases hlt : a.start < m.old_start
    · refine ⟨[], m :: rest, rfl, by simp, ?_, ?_⟩
      · intro m2 hm2
        have hos2 : a.start < m2.old_start := by
          rcases List.mem_cons.mp hm2 with rfl | hm2'
          · exact hlt
          · have h1 := hsort.1 m2 hm2'
            have h2 := hext m (List.mem_cons_self _ _)
            omega
        have hnov := hno m2 hm2
        unfold mapOverlap at hnov
        push_neg at hnov
        have hext2 := hext m2 hm2
        have h1 : a.start < m2.old_start + m2.old_extent := by omega
        have := hnov h1
        omega
      · rw [skipMaps, if_pos hlt]
        simp [sumDelta]
    · push_neg at hlt
      have hnovm := hno m (List.mem_cons_self _ _)
      unfold mapOverlap at hnovm
      push_neg at hnovm
      have hoe : m.old_start + m.old_extent ≤ a.start := by
        by_contra hcon
        push_neg at hcon
        have := hnovm hcon
        omega
      obtain ⟨pre', maps2, heq, hpre, hm2, hrun⟩ :=
        ih (offset + m.new_extent - m.old_extent) hsort.2
          (fun x hx => hext x (List.mem_cons_of_mem _ hx))
          (fun x hx => hno x (List.mem_cons_of_mem _ hx))
      have harith : offset + m.new_extent - m.old_extent + sumDelta pre'
          = offset + sumDelta (m :: pre') := by
        unfold sumDelta
        rw [List.map_cons, List.sum_cons]
        ring
      refine ⟨m :: pre', maps2, by rw [List.cons_append, heq], ?_, hm2, ?_⟩
      · intro x hx
        rcases List.mem_cons.mp hx with rfl | hx'
        · exact hoe
        · exact hpre x hx'
      · rw [skipMaps, if_neg (by omega), if_neg (by omega), hrun, harith]

lemma skipMaps_err_or (a : AmendmentRecord) :
    ∀ (maps : List FileLineMapping) (offset : Int),
      maps.Pairwise (fun m1 m2 => m1.old_start + m1.old_extent ≤ m2.old_start) →
      (∀ m ∈ maps, 0 ≤ m.old_extent) →
      (∃ m ∈ maps, mapOverlap a m) →
      skipMaps a maps offset = .error "amendment overlaps diff delta"
        ∨ ∃ m2 mrest offset2, skipMaps a maps offset = .ok (m2 :: mrest, offset2)
            ∧ m2.old_start < a.start + a.extent := by
  intro maps
  induction maps with
  | nil =>
    intro offset _ _ hex
    rcases hex with ⟨m, hm, _⟩
    cases hm
  | cons m rest ih =>
    intro offset hsort hext hex
    rw [List.pairwise_cons] at hsort
    by_cases hlt : a.start < m.old_start
    · right
      refine ⟨m, rest, offset, by rw [skipMaps, if_pos hlt], ?_⟩
      rcases hex with ⟨mo, hmo, hov⟩
      unfold mapOverlap at hov
      rcases List.mem_cons.mp hmo with rfl | hmo'
      · omega
      · have h1 := hsort.1 mo hmo'
        have h2 := hext m (List.mem_cons_self _ _)
        omega
    · push_neg at hlt
      by_cases hhit : m.old_start + m.old_extent > a.start
      · left
        rw [skipMaps, if_neg (by omega), if_pos hhit]
      · push_neg at hhit
        have hrest : ∃ mo ∈ rest, mapOverlap a mo := by
          rcases hex with ⟨mo, hmo, hov⟩
          rcases List.mem_cons.mp hmo with rfl | hmo'
          · exfalso
            unfold mapOverlap at hov
            omega
          · exact ⟨mo, hmo', hov⟩
        rcases ih (offset + m.new_extent - m.old_extent) hsort.2
            (fun x hx => hext x (List.mem_cons_of_mem _ hx)) hrest with
          h | ⟨m2, mrest, offset2, hok, hlt2⟩
        · left
          rw [skipMaps, if_neg (by omega), if_neg (by omega)]
          exact h
        · right
          refine ⟨m2, mrest, offset2, ?_, hlt2⟩
          rw [skipMaps, if_neg (by omega), if_neg (by omega)]
          exact hok

lemma adjGo_cons_eval (a : AmendmentRecord) (tail : List AmendmentRecord)
    (maps maps2 : List FileLineMapping) (offset offset2 : Int)
    (acc acc2 : List AmendmentRecord)
    (hrun : skipMaps a maps offset = .ok (maps2, offset2))
    (hfar : ∀ m ∈ maps2, ¬ (a.start + a.extent > m.old_start))
    (hrl : replaceLines acc (a.start + offset2) a.extent a.replacement = .ok acc2) :
    adjGo (a :: tail) maps offset acc = adjGo tail maps2 offset2 acc2 := by
  cases maps2 with
  | nil => simp only [adjGo, hrun, hrl]
  | cons m mrest =>
    simp only [adjGo, hrun]
    rw [if_neg (hfar m (List.mem_cons_self _ _))]
    simp only [hrl]

lemma adjGo_step_clean (a : AmendmentRecord) (tail : List AmendmentRecord)
    (maps : List FileLineMapping) (offset : Int) (acc : List AmendmentRecord)
    (he : 1 ≤ a.extent)
    (hmsort : maps.Pairwise (fun m1 m2 => m1.old_start + m1.old_extent ≤ m2.old_start))
    (hmext : ∀ m ∈ maps, 0 ≤ m.old_extent)
    (hnoa : ∀ m ∈ maps, ¬ mapOverlap a m)
    (hexta : ∀ q ∈ acc, 1 ≤ q.extent)
    (hend : ∀ q ∈ acc, q.start + q.extent ≤ a.start + offset + offsetBefore maps a.start) :
    ∃ pre maps2, maps = pre ++ maps2
      ∧ (∀ m ∈ pre, m.old_start + m.old_extent ≤ a.start)
      ∧ (∀ m ∈ maps2, a.start + a.extent ≤ m.old_start)
      ∧ offsetBefore maps a.start = sumDelta pre
      ∧ adjGo (a :: tail) maps offset acc
          = adjGo tail maps2 (offset + sumDelta pre)
              (acc ++ [⟨a.start + (offset + sumDelta pre), a.extent, a.replacement⟩]) := by
  obtain ⟨pre, maps2, heq, hpre, hm2, hrun⟩ :=
    skipMaps_no_overlap a he maps offset hmsort hmext hnoa
  have hnone : ∀ m ∈ maps2, a.start < m.old_start + m.old_extent := by
    intro m hm
    have h1 := hm2 m hm
    have h2 := hmext m (by rw [heq]; exact List.mem_append_right _ hm)
    omega
  have hoff : offsetBefore maps a.start = sumDelta pre := by
    rw [heq, offsetBefore_append, offsetBefore_all pre a.start hpre,
      offsetBefore_none maps2 a.start hnone, add_zero]
  have hrl : replaceLines acc (a.start + (offset + sumDelta pre)) a.extent a.replacement
      = .ok (acc ++ [⟨a.start + (offset + sumDelta pre), a.extent, a.replacement⟩]) := by
    apply replaceLines_append acc _ _ _ hexta
    intro q hq
    have h1 := hend q hq
    rw [hoff] at h1
    omega
  refine ⟨pre, maps2, heq, hpre, hm2, hoff, ?_⟩
  exact adjGo_cons_eval a tail maps maps2 offset (offset + sumDelta pre) acc _ hrun
    (fun m hm => by have := hm2 m hm; omega) hrl

lemma adjGo_step_hyps (a : AmendmentRecord) (tail : List AmendmentRecord)
    (maps pre maps2 : List FileLineMapping) (offset : Int) (acc : List AmendmentRecord)
    (heq : maps = pre ++ maps2)
    (hpre : ∀ m ∈ pre, m.old_start + m.old_extent ≤ a.start)
    (hm2 : ∀ m ∈ maps2, a.start + a.extent ≤ m.old_start)
    (he : 1 ≤ a.extent)
    (hsepcross : ∀ x ∈ tail, a.start + a.extent ≤ x.start)
    (hmsort : maps.Pairwise (fun m1 m2 => m1.old_start + m1.old_extent ≤ m2.old_start))
    (hmext : ∀ m ∈ maps, 0 ≤ m.old_extent ∧ 0 ≤ m.new_extent)
    (hexta : ∀ q ∈ acc, 1 ≤ q.extent)
    (hend : ∀ x ∈ a :: tail, ∀ q ∈ acc,
      q.start + q.extent ≤ x.start + offset + offsetBefore maps x.start) :
    maps2.Pairwise (fun m1 m2 => m1.old_start + m1.old_extent ≤ m2.old_start)
      ∧ (∀ m ∈ maps2, 0 ≤ m.old_extent ∧ 0 ≤ m.new_extent)
      ∧ (∀ q ∈ acc ++ [(⟨a.start + (offset + sumDelta pre), a.extent, a.replacement⟩ :
            AmendmentRecord)], 1 ≤ q.extent)
      ∧ (∀ x ∈ tail, offset + offsetBefore maps x.start
          = (offset + sumDelta pre) + offsetBefore maps2 x.start)
      ∧ (∀ x ∈ tail, ∀ q ∈ acc ++ [(⟨a.start + (offset + sumDelta pre), a.extent,
            a.replacement⟩ : AmendmentRecord)],
          q.start + q.extent ≤ x.start + (offset + sumDelta pre) + offsetBefore maps2 x.start) := by
  have hmsort2 : maps2.Pairwise (fun m1 m2 => m1.old_start + m1.old_extent ≤ m2.old_start) := by
    rw [heq] at hmsort
    exact (List.pairwise_append.mp hmsort).2.1
  have hmext2 : ∀ m ∈ maps2, 0 ≤ m.old_extent ∧ 0 ≤ m.new_extent := by
    intro m hm
    exact hmext m (by rw [heq]; exact List.mem_append_right _ hm)
  have hconsist : ∀ x ∈ tail, offset + offsetBefore maps x.start
      = (offset + sumDelta pre) + offsetBefore maps2 x.start := by
    intro x hx
    have hs' : a.start + a.extent ≤ x.start := hsepcross x hx
    rw [heq, offsetBefore_append, offsetBefore_all pre x.start
      (fun m hm => by have := hpre m hm; omega)]
    ring
  refine ⟨hmsort2, hmext2, ?_, hconsist, ?_⟩
  · intro q hq
    rcases List.mem_append.mp hq with hq' | hq'
    · exact hexta q hq'
    · rw [List.mem_singleton] at hq'
      subst hq'
      show (1 : Int) ≤ a.extent
      exact he
  · intro x hx q hq
    have hs' : a.start + a.extent ≤ x.start := hsepcross x hx
    rcases List.mem_append.mp hq with hq' | hq'
    · have h1 := hend x (List.mem_cons_of_mem _ hx) q hq'
      have h2 := hconsist x hx
      omega
    · rw [List.mem_singleton] at hq'
      subst hq'
      have hbound : sumOld (maps2.filter (fun m => m.old_start + m.old_extent ≤ x.start))
          ≤ x.start - (a.start + a.extent) :=
        sumOld_filter_bound maps2 (a.start + a.extent) x.start hmsort2
          (fun m hm => (hmext2 m hm).1) hm2 hs'
      have hge := offsetBefore_ge maps2 x.start (fun m hm => (hmext2 m hm).2)
      show a.start + (offset + sumDelta pre) + a.extent
          ≤ x.start + (offset + sumDelta pre) + offsetBefore maps2 x.start
      omega

lemma adjGo_no_overlap :
    ∀ (amends : List AmendmentRecord) (maps : List FileLineMapping) (offset : Int)
      (acc : List AmendmentRecord),
      sepList amends → (∀ a ∈ amends, 1 ≤ a.extent) →
      maps.Pairwise (fun m1 m2 => m1.old_start + m1.old_extent ≤ m2.old_start) →
      (∀ m ∈ maps, 0 ≤ m.old_extent ∧ 0 ≤ m.new_extent) →
      (∀ a ∈ amends, ∀ m ∈ maps, ¬ mapOverlap a m) →
      (∀ q ∈ acc, 1 ≤ q.extent) →
      (∀ a ∈ amends, ∀ q ∈ acc,
        q.start + q.extent ≤ a.start + offset + offsetBefore maps a.start) →
      adjGo amends maps offset acc
        = .ok (acc ++ amends.map (fun a =>
            ⟨a.start + (offset + offsetBefore maps a.start), a.extent, a.replacement⟩)) := by
  intro amends
  induction amends with
  | nil =>
    intro maps offset acc _ _ _ _ _ _ _
    simp [adjGo]
  | cons a tail ih =>
    intro maps offset acc hsep hext hmsort hmext hno hexta hend
    unfold sepList at hsep
    rw [List.pairwise_cons] at hsep
    have hsepcross : ∀ x ∈ tail, a.start + a.extent ≤ x.start := hsep.1
    obtain ⟨pre, maps2, heq, hpre, hm2, hoff, hstep⟩ :=
      adjGo_step_clean a tail maps offset acc (hext a (List.mem_cons_self _ _)) hmsort
        (fun m hm => (hmext m hm).1) (hno a (List.mem_cons_self _ _)) hexta
        (hend a (List.mem_cons_self _ _))
    obtain ⟨hmsort2, hmext2, hexta2, hconsist, hend2⟩ :=
      adjGo_step_hyps a tail maps pre maps2 offset acc heq hpre hm2
        (hext a (List.mem_cons_self _ _)) hsepcross hmsort hmext hexta hend
    rw [hstep]
    rw [ih maps2 (offset + sumDelta pre)
      (acc ++ [(⟨a.start + (offset + sumDelta pre), a.extent, a.replacement⟩ :
        AmendmentRecord)])
      hsep.2 (fun x hx => hext x (List.mem_cons_of_mem _ hx))
      hmsort2 hmext2
      (fun x hx m hm => hno x (List.mem_cons_of_mem _ hx) m
        (by rw [heq]; exact List.mem_append_right _ hm))
      hexta2 hend2]
    have hmapeq : tail.map (fun x =>
        (⟨x.start + ((offset + sumDelta pre) + offsetBefore maps2 x.start), x.extent,
          x.replacement⟩ : AmendmentRecord))
        = tail.map (fun x =>
            ⟨x.start + (offset + offsetBefore maps x.start), x.extent, x.replacement⟩) := by
      apply List.map_congr_left
      intro x hx
      have h1 := hconsist x hx
      rw [AmendmentRecord.mk.injEq]
      refine ⟨by omega, rfl, rfl⟩
    rw [hmapeq, List.map_cons, hoff]
    simp [List.append_assoc]

lemma adjGo_overlap_err :
    ∀ (amends : List AmendmentRecord) (maps : List FileLineMapping) (offset : Int)
      (acc : List AmendmentRecord),
      sepList amends → (∀ a ∈ amends, 1 ≤ a.extent) →
      maps.Pairwise (fun m1 m2 => m1.old_start + m1.old_extent ≤ m2.old_start) →
      (∀ m ∈ maps, 0 ≤ m.old_extent ∧ 0 ≤ m.new_extent) →
      (∀ q ∈ acc, 1 ≤ q.extent) →
      (∀ a ∈ amends, ∀ q ∈ acc,
        q.start + q.extent ≤ a.start + offset + offsetBefore maps a.start) →
      (∃ a ∈ amends, ∃ m ∈ maps, mapOverlap a m) →
      adjGo amends maps offset acc = .error "amendment overlaps diff delta" := by
  intro amends
  induction amends with
  | nil =>
    intro maps offset acc _ _ _ _ _ _ hex
    rcases hex with ⟨a, ha, _⟩
    cases ha
  | cons a tail ih =>
    intro maps offset acc hsep hext hmsort hmext hexta hend hex
    unfold sepList at hsep
    rw [List.pairwise_cons] at hsep
    by_cases hhead : ∃ m ∈ maps, mapOverlap a m
    · rcases skipMaps_err_or a maps offset hmsort (fun m hm => (hmext m hm).1) hhead with
        herr | ⟨m2, mrest, offset2, hok, hlt2⟩
      · simp only [adjGo, herr]
      · simp only [adjGo, hok]
        rw [if_pos (show a.start + a.extent > m2.old_start by omega)]
    · push_neg at hhead
      obtain ⟨pre, maps2, heq, hpre, hm2, hoff, hstep⟩ :=
        adjGo_step_clean a tail maps offset acc (hext a (List.mem_cons_self _ _)) hmsort
          (fun m hm => (hmext m hm).1) hhead hexta (hend a (List.mem_cons_self _ _))
      obtain ⟨hmsort2, hmext2, hexta2, hconsist, hend2⟩ :=
        adjGo_step_hyps a tail maps pre maps2 offset acc heq hpre hm2
          (hext a (List.mem_cons_self _ _)) hsep.1 hmsort hmext hexta hend
      rw [hstep]
      rcases hex with ⟨x, hx, m, hm, hov⟩
      have hxtail : x ∈ tail := by
        rcases List.mem_cons.mp hx with rfl | h
        · exact absurd hov (hhead m hm)
        · exact h
      have hmm : m ∈ maps2 := by
        rw [heq] at hm
        rcases List.mem_append.mp hm with hmp | h
        · exfalso
          have h1 := hpre m hmp
          have hs' : a.start + a.extent ≤ x.start := hsep.1 x hxtail
          have hea := hext a (List.mem_cons_self _ _)
          unfold mapOverlap at hov
          omega
        · exact h
      exact ih maps2 (offset + sumDelta pre)
        (acc ++ [⟨a.start + (offset + sumDelta pre), a.extent, a.replacement⟩])
        hsep.2 (fun y hy => hext y (List.mem_cons_of_mem _ hy))
        hmsort2 hmext2 hexta2 hend2 ⟨x, hxtail, m, hmm, hov⟩

/-- **C2 (amended).** For amendments sorted with pairwise separated
ranges and extents at least 1, and a mapping stream sorted by
`old_start` with pairwise separated old ranges and non-negative extents:
`adjusted_by_diff` raises the fatal `'amendment overlaps diff delta'`
error exactly when some amendment fails strict separation from some
mapping's old range; otherwise it succeeds and emits every amendment at
`start + offset`, where `offset` sums `new_extent - old_extent` over the
mappings lying entirely at or before the amendment's start. -/
theorem adjusted_by_diff_characterization
    (amends : List AmendmentRecord) (maps : List FileLineMapping)
    (hsep : sepList amends) (hext : ∀ a ∈ amends, 1 ≤ a.extent)
    (hmsort : maps.Pairwise (fun m1 m2 => m1.old_start + m1.old_extent ≤ m2.old_start))
    (hmext : ∀ m ∈ maps, 0 ≤ m.old_extent ∧ 0 ≤ m.new_extent) :
    (adjustedByDiff amends maps = .error "amendment overlaps diff delta"
        ↔ ∃ a ∈ amends, ∃ m ∈ maps, mapOverlap a m)
      ∧ ((∀ a ∈ amends, ∀ m ∈ maps, ¬ mapOverlap a m) →
          adjustedByDiff amends maps = .ok (shiftedAmendments maps amends)) := by
  have hok : (∀ a ∈ amends, ∀ m ∈ maps, ¬ mapOverlap a m) →
      adjustedByDiff amends maps = .ok (shiftedAmendments maps amends) := by
    intro hno
    unfold adjustedByDiff
    rw [adjGo_no_overlap amends maps 0 [] hsep hext hmsort hmext hno
      (by intro q hq; cases hq) (by intro a _ q hq; cases hq)]
    rw [List.nil_append]
    unfold shiftedAmendments
    congr 1
    apply List.map_congr_left
    intro a _
    rw [AmendmentRecord.mk.injEq]
    refine ⟨by omega, rfl, rfl⟩
  refine ⟨⟨?_, ?_⟩, hok⟩
  · intro herr
    by_contra hno
    push_neg at hno
    rw [hok hno] at herr
    exact Except.noConfusion herr
  · intro hex
    unfold adjustedByDiff
    exact adjGo_overlap_err amends maps 0 [] hsep hext hmsort hmext
      (by intro q hq; cases hq) (by intro a _ q hq; cases hq) hex

/-- Witness for C2 on one amendment behind one insertion-heavy mapping:
the mapping `(1, 2) → (1, 5)` ends before the amendment at line 5, so the
amendment is shifted by `5 - 2 = 3`. -/
theorem adjusted_by_diff_characterization_witness :
    (sepList [(⟨5, 1, [7]⟩ : AmendmentRecord)]
      ∧ (∀ a ∈ [(⟨5, 1, [7]⟩ : AmendmentRecord)], 1 ≤ a.extent)
      ∧ ([(⟨1, 2, 1, 5⟩ : FileLineMapping)].Pairwise
          (fun m1 m2 => m1.old_start + m1.old_extent ≤ m2.old_start))
      ∧ (∀ m ∈ [(⟨1, 2, 1, 5⟩ : FileLineMapping)], 0 ≤ m.old_extent ∧ 0 ≤ m.new_extent))
      ∧ ((adjustedByDiff [⟨5, 1, [7]⟩] [⟨1, 2, 1, 5⟩]
            = .error "amendment overlaps diff delta"
          ↔ ∃ a ∈ [(⟨5, 1, [7]⟩ : AmendmentRecord)],
              ∃ m ∈ [(⟨1, 2, 1, 5⟩ : FileLineMapping)], mapOverlap a m)
        ∧ ((∀ a ∈ [(⟨5, 1, [7]⟩ : AmendmentRecord)],
              ∀ m ∈ [(⟨1, 2, 1, 5⟩ : FileLineMapping)], ¬ mapOverlap a m) →
            adjustedByDiff [⟨5, 1, [7]⟩] [⟨1, 2, 1, 5⟩]
              = .ok (shiftedAmendments [⟨1, 2, 1, 5⟩] [⟨5, 1, [7]⟩]))) := by
  constructor
  · refine ⟨?_, ?_, ?_, ?_⟩
    · unfold sepList
      decide
    · decide
    · decide
    · decide
  · exact adjusted_by_diff_characterization [⟨5, 1, [7]⟩] [⟨1, 2, 1, 5⟩]
      (by unfold sepList; decide) (by decide) (by decide) (by decide)

/-- **C4 (counterexample).** `parse_blame` coalesces two consecutive
entries with different source commit hashes (`"aaa"` vs `"bbb"`): the
merge condition compares only the filename and the line contiguities,
never the hash, so the output is a single widened pair attributed to
`"aaa"` where the claim demands two separate extent-1 pairs. -/
theorem parse_blame_cex :
    parseBlame ⟨"H", "T", 1, 2⟩
        [⟨"aaa", "f", false, 5, 10, true⟩, ⟨"bbb", "f", false, 6, 11, false⟩] true
      = [(⟨"aaa", "f", 5, 2⟩, ⟨"H", "T", 10, 2⟩)]
      ∧ ("aaa" : String) ≠ "bbb" :=
  ⟨rfl, by decide⟩

/-- **C6 (amended).** For a stored amendment list satisfying the
sorted/separated invariant with all extents ≥ 1, and a new record of
extent ≥ 1: `replace_lines` raises the overlapping-amendments error iff
the new record's range overlaps the range of some stored record other
than an exact duplicate of itself; an exact duplicate is silently
discarded leaving the list unchanged; otherwise the record is inserted
and the list remains sorted with
`r_i.start + r_i.extent ≤ r_{i+1}.start` for every adjacent pair. -/
theorem replace_lines_characterization (l : List AmendmentRecord) (s e : Int) (r : Bytes)
    (hsep : sepList l) (hext : ∀ q ∈ l, 1 ≤ q.extent) (he : 1 ≤ e) :
    ((∃ msg, replaceLines l s e r = .error msg)
        ↔ ∃ q ∈ l, q ≠ ⟨s, e, r⟩ ∧ recOverlap ⟨s, e, r⟩ q)
      ∧ ((⟨s, e, r⟩ : AmendmentRecord) ∈ l → replaceLines l s e r = .ok l)
      ∧ ((⟨s, e, r⟩ : AmendmentRecord) ∉ l → (¬ ∃ q ∈ l, recOverlap ⟨s, e, r⟩ q) →
          ∃ l2, replaceLines l s e r = .ok l2 ∧ sepList l2
            ∧ ∀ x, x ∈ l2 ↔ x ∈ l ∨ x = ⟨s, e, r⟩) := by
  classical
  obtain ⟨P, S, hPS, hPmem, hShead⟩ :
      ∃ P S, l = P ++ S ∧ (∀ q ∈ P, recLtb q ⟨s, e, r⟩ = true)
        ∧ (∀ x, S.head? = some x → recLtb x ⟨s, e, r⟩ = false) := by
    refine ⟨l.takeWhile (fun q => recLtb q ⟨s, e, r⟩),
      l.dropWhile (fun q => recLtb q ⟨s, e, r⟩),
      (List.takeWhile_append_dropWhile (p := fun q => recLtb q ⟨s, e, r⟩) (l := l)).symm,
      ?_, ?_⟩
    · intro q hq
      have h1 := List.mem_takeWhile_imp (p := fun q => recLtb q ⟨s, e, r⟩) hq
      simpa using h1
    · intro x hx
      exact dropWhile_head_false _ l x hx
  subst hPS
  rw [sepList, List.pairwise_append] at hsep
  obtain ⟨hsepP, hsepS, hcross⟩ := hsep
  have hextP : ∀ q ∈ P, 1 ≤ q.extent := fun q hq => hext q (List.mem_append_left _ hq)
  have hextS : ∀ q ∈ S, 1 ≤ q.extent := fun q hq => hext q (List.mem_append_right _ hq)
  have hPle : ∀ q ∈ P, q.start ≤ s := fun q hq => recLtb_true_start_le (hPmem q hq)
  have hPne : ∀ q ∈ P, q ≠ (⟨s, e, r⟩ : AmendmentRecord) := by
    intro q hq hcon
    have h1 := hPmem q hq
    rw [hcon, recLtb_irrefl] at h1
    exact Bool.noConfusion h1
  cases S with
  | nil =>
    rw [List.append_nil]
    have hred := replaceLines_reduce_nil P s e r hPmem
    by_cases hpc : priorCheck P s = true
    · obtain ⟨pr, hprP, hpr⟩ := priorCheck_true_exists P s hpc
      have hov : recOverlap ⟨s, e, r⟩ pr := by
        refine ⟨?_, ?_⟩
        · show s < pr.start + pr.extent
          omega
        · show pr.start < s + e
          have := hPle pr hprP
          omega
      refine ⟨iff_of_true ⟨_, by rw [hred, if_pos hpc]⟩ ⟨pr, hprP, hPne pr hprP, hov⟩,
        fun hmem => absurd rfl (hPne _ hmem), fun _ hno => (hno ⟨pr, hprP, hov⟩).elim⟩
    · have hpc2 : priorCheck P s = false := by
        rwa [Bool.not_eq_true] at hpc
      have hall := priorCheck_false_all_le P s hsepP hextP hpc2
      have hok : replaceLines P s e r = .ok (P ++ [⟨s, e, r⟩]) := by
        rw [hred, hpc2]
        rfl
      have hLfalse : ¬ ∃ msg, replaceLines P s e r = .error msg := by
        rintro ⟨msg, hmsg⟩
        rw [hok] at hmsg
        exact Except.noConfusion hmsg
      have hRfalse : ¬ ∃ q ∈ P, q ≠ (⟨s, e, r⟩ : AmendmentRecord)
          ∧ recOverlap ⟨s, e, r⟩ q := by
        rintro ⟨q, hq, _, hov⟩
        have h1 : s < q.start + q.extent := hov.1
        have h2 := hall q hq
        omega
      refine ⟨iff_of_false hLfalse hRfalse,
        fun hmem => absurd rfl (hPne _ hmem), fun _ _ => ?_⟩
      refine ⟨P ++ [⟨s, e, r⟩], hok, ?_, by intro x; simp⟩
      rw [sepList, List.pairwise_append]
      refine ⟨hsepP, List.pairwise_singleton _ _, ?_⟩
      intro q hq x hx
      rw [List.mem_singleton] at hx
      subst hx
      show q.start + q.extent ≤ s
      exact hall q hq
  | cons next S' =>
    have hnext : recLtb next ⟨s, e, r⟩ = false := hShead next rfl
    have hred := replaceLines_reduce_cons P next S' s e r hPmem hnext
    have hsle : s ≤ next.start := recLtb_false_start_le hnext
    have hnextext : 1 ≤ next.extent := hextS next (by simp)
    rw [List.pairwise_cons] at hsepS
    obtain ⟨hnextS', hsepS'⟩ := hsepS
    have hrecS' : (⟨s, e, r⟩ : AmendmentRecord) ∉ S' := by
      intro hmem
      have h1 : next.start + next.extent ≤ s := hnextS' _ hmem
      omega
    have hmem_cases : ∀ x, x ∈ P ++ next :: S' ↔ x ∈ P ∨ x = next ∨ x ∈ S' := by
      intro x
      simp [List.mem_append, List.mem_cons]
    by_cases hpc : priorCheck P s = true
    · obtain ⟨pr, hprP, hpr⟩ := priorCheck_true_exists P s hpc
      have hov : recOverlap ⟨s, e, r⟩ pr := by
        refine ⟨?_, ?_⟩
        · show s < pr.start + pr.extent
          omega
        · show pr.start < s + e
          have := hPle pr hprP
          omega
      have hmemP : pr ∈ P ++ next :: S' := List.mem_append_left _ hprP
      have hnotin : (⟨s, e, r⟩ : AmendmentRecord) ∉ P ++ next :: S' := by
        intro hmem
        rcases (hmem_cases _).mp hmem with h | h | h
        · exact hPne _ h rfl
        · have hcr := hcross pr hprP next (by simp)
          have h1 : next.start = s := by rw [← h]
          omega
        · exact hrecS' h
      refine ⟨iff_of_true ⟨_, by rw [hred, if_pos hpc]⟩
          ⟨pr, hmemP, hPne pr hprP, hov⟩,
        fun hmem => absurd hmem hnotin, fun _ hno => (hno ⟨pr, hmemP, hov⟩).elim⟩
    · have hpc2 : priorCheck P s = false := by
        rwa [Bool.not_eq_true] at hpc
      have hall := priorCheck_false_all_le P s hsepP hextP hpc2
      by_cases hdup : (⟨s, e, r⟩ : AmendmentRecord) = next
      · have hok : replaceLines (P ++ next :: S') s e r = .ok (P ++ next :: S') := by
          rw [hred, hpc2, if_neg (fun h => Bool.noConfusion h), if_pos hdup]
        have hnstart : next.start = s := by rw [← hdup]
        have hnext2 : next.extent = e := by rw [← hdup]
        have hLfalse : ¬ ∃ msg, replaceLines (P ++ next :: S') s e r = .error msg := by
          rintro ⟨msg, hmsg⟩
          rw [hok] at hmsg
          exact Except.noConfusion hmsg
        have hRfalse : ¬ ∃ q ∈ P ++ next :: S', q ≠ (⟨s, e, r⟩ : AmendmentRecord)
            ∧ recOverlap ⟨s, e, r⟩ q := by
          rintro ⟨q, hq, hne, hov⟩
          have h1 : s < q.start + q.extent := hov.1
          have h2 : q.start < s + e := hov.2
          rcases (hmem_cases _).mp hq with h | h | h
          · have := hall q h
            omega
          · exact hne (by rw [h, hdup])
          · have := hnextS' q h
            omega
        refine ⟨iff_of_false hLfalse hRfalse, fun _ => hok, fun hnm _ => ?_⟩
        exact absurd ((hmem_cases _).mpr (Or.inr (Or.inl hdup))) hnm
      · by_cases hcol : s + e > next.start
        · have herr : replaceLines (P ++ next :: S') s e r
              = .error "overlapping amendments requested" := by
            rw [hred, hpc2, if_neg (fun h => Bool.noConfusion h), if_neg hdup, if_pos hcol]
          have hov : recOverlap ⟨s, e, r⟩ next := by
            refine ⟨?_, ?_⟩
            · show s < next.start + next.extent
              omega
            · show next.start < s + e
              omega
          have hmemnext : next ∈ P ++ next :: S' := (hmem_cases _).mpr (Or.inr (Or.inl rfl))
          have hnotin : (⟨s, e, r⟩ : AmendmentRecord) ∉ P ++ next :: S' := by
            intro hmem
            rcases (hmem_cases _).mp hmem with h | h | h
            · exact hPne _ h rfl
            · exact hdup h
            · exact hrecS' h
          refine ⟨iff_of_true ⟨_, herr⟩
              ⟨next, hmemnext, fun hcon => hdup hcon.symm, hov⟩,
            fun hmem => absurd hmem hnotin, fun _ hno => (hno ⟨next, hmemnext, hov⟩).elim⟩
        · have hcol2 : s + e ≤ next.start := by omega
          have hok : replaceLines (P ++ next :: S') s e r
              = .ok (P ++ ⟨s, e, r⟩ :: next :: S') := by
            rw [hred, hpc2, if_neg (fun h => Bool.noConfusion h), if_neg hdup,
              if_neg (by omega)]
          have hLfalse : ¬ ∃ msg, replaceLines (P ++ next :: S') s e r = .error msg := by
            rintro ⟨msg, hmsg⟩
            rw [hok] at hmsg
            exact Except.noConfusion hmsg
          have hRfalse : ¬ ∃ q ∈ P ++ next :: S', q ≠ (⟨s, e, r⟩ : AmendmentRecord)
              ∧ recOverlap ⟨s, e, r⟩ q := by
            rintro ⟨q, hq, hne, hov⟩
            have h1 : s < q.start + q.extent := hov.1
            have h2 : q.start < s + e := hov.2
            rcases (hmem_cases _).mp hq with h | h | h
            · have := hall q h
              omega
            · have : next.start < s + e := by rw [← h]; exact h2
              omega
            · have := hnextS' q h
              omega
          have hnotin : (⟨s, e, r⟩ : AmendmentRecord) ∉ P ++ next :: S' := by
            intro hmem
            rcases (hmem_cases _).mp hmem with h | h | h
            · exact hPne _ h rfl
            · exact hdup h
            · exact hrecS' h
          refine ⟨iff_of_false hLfalse hRfalse, fun hmem => absurd hmem hnotin,
            fun _ _ => ?_⟩
          refine ⟨P ++ ⟨s, e, r⟩ :: next :: S', hok, ?_, ?_⟩
          · rw [sepList, List.pairwise_append]
            refine ⟨hsepP, ?_, ?_⟩
            · rw [List.pairwise_cons]
              refine ⟨?_, ?_⟩
              · intro q hq
                rw [List.mem_cons] at hq
                rcases hq with h | h
                · subst h
                  exact hcol2
                · have h2 := hnextS' q h
                  show s + e ≤ q.start
                  omega
              · rw [List.pairwise_cons]
                exact ⟨hnextS', hsepS'⟩
            · intro q hq x hx
              rw [List.mem_cons] at hx
              rcases hx with h | h
              · subst h
                show q.start + q.extent ≤ s
                exact hall q hq
              · exact hcross q hq x h
          · intro x
            simp only [List.mem_append, List.mem_cons]
            constructor
            · rintro (h | h | h | h)
              · exact Or.inl (Or.inl h)
              · exact Or.inr h
              · exact Or.inl (Or.inr (Or.inl h))
              · exact Or.inl (Or.inr (Or.inr h))
            · rintro ((h | h | h) | h)
              · exact Or.inl h
              · exact Or.inr (Or.inr (Or.inl h))
              · exact Or.inr (Or.inr (Or.inr h))
              · exact Or.inr (Or.inl h)

/-- Witness for C6: inserting `(3, 1, ..)` into the singleton list
`[(1, 1, ..)]` succeeds, keeps the separation invariant, and adds the
record. -/
theorem replace_lines_characterization_witness :
    sepList [⟨1, 1, [0]⟩] ∧ (∀ q ∈ [(⟨1, 1, [0]⟩ : AmendmentRecord)], 1 ≤ q.extent)
      ∧ (1 : Int) ≤ 1
      ∧ ∃ l2, replaceLines [⟨1, 1, [0]⟩] 3 1 [2] = .ok l2 ∧ sepList l2
          ∧ ∀ x, x ∈ l2 ↔ x ∈ [(⟨1, 1, [0]⟩ : AmendmentRecord)] ∨ x = ⟨3, 1, [2]⟩ := by
  refine ⟨by unfold sepList; decide, by decide, by decide, ?_⟩
  have hno : ¬ ∃ q ∈ [(⟨1, 1, [0]⟩ : AmendmentRecord)], recOverlap ⟨3, 1, [2]⟩ q := by
    rintro ⟨q, hq, hov⟩
    rw [List.mem_singleton] at hq
    subst hq
    have h1 : (3 : Int) < 1 + 1 := hov.1
    omega
  exact (replace_lines_characterization [⟨1, 1, [0]⟩] 3 1 [2]
      (by unfold sepList; decide) (by decide) (by decide)).2.2 (by decide) hno

/-! ## Streaming blob rewrite (C1) -/

lemma specWriteLoop_nil_amends : ∀ (lineno : Int) (lines : List Bytes),
    specWriteLoop [] lineno lines = lines := by
  intro lineno lines
  induction lines generalizing lineno with
  | nil => rfl
  | cons line rest ih =>
    simp only [specWriteLoop, List.filter_nil, List.map_nil, List.any_nil, List.nil_append,
      Bool.false_eq_true, if_false, List.singleton_append]
    rw [ih]

lemma specWriteLoop_drop_head : ∀ (lines : List Bytes) (h : AmendmentRecord)
    (t : List AmendmentRecord) (lineno : Int),
    h.start < lineno → h.start + h.extent < lineno →
    specWriteLoop (h :: t) lineno lines = specWriteLoop t lineno lines := by
  intro lines
  induction lines with
  | nil => intros; rfl
  | cons line rest ih =>
    intro h t lineno h1 h2
    have hfilter : (h.start == lineno) = false := by
      rw [beq_eq_false_iff_ne]
      omega
    have hany : (decide (h.start ≤ lineno) && decide (lineno < h.start + h.extent)) = false := by
      have h3 : ¬ (lineno < h.start + h.extent) := by omega
      simp [h3]
    simp only [specWriteLoop, List.filter_cons, List.any_cons, hfilter, hany,
      Bool.false_eq_true, if_false, Bool.false_or]
    rw [ih h t (lineno + 1) (by omega) (by omega)]

lemma writeChunk_eq (cur : AmendmentRecord) (t' : List AmendmentRecord)
    (lineno : Int) (line : Bytes) (htail : ∀ x ∈ t', lineno < x.start) :
    (((cur :: t').filter (fun a => a.start == lineno)).map (fun a => a.replacement))
        ++ (if (cur :: t').any
              (fun a => decide (a.start ≤ lineno) && decide (lineno < a.start + a.extent))
            then [] else [line])
      = (if lineno = cur.start then [cur.replacement] else [])
        ++ (if cur.start ≤ lineno ∧ lineno < cur.start + cur.extent then [] else [line]) := by
  have hft : t'.filter (fun a => a.start == lineno) = [] := by
    rw [List.filter_eq_nil_iff]
    intro x hx
    have h1 := htail x hx
    simp only [beq_iff_eq]
    omega
  have hat : t'.any
      (fun a => decide (a.start ≤ lineno) && decide (lineno < a.start + a.extent)) = false := by
    rw [List.any_eq_false]
    intro x hx
    have h1 := htail x hx
    have h2 : ¬ (x.start ≤ lineno) := by omega
    simp [h2]
  rw [List.filter_cons, List.any_cons, hat, Bool.or_false, hft]
  by_cases hc1 : cur.start = lineno
  · rw [if_pos (show (cur.start == lineno) = true by simpa using hc1), if_pos hc1.symm,
      List.map_cons, List.map_nil]
    by_cases hc2 : cur.start ≤ lineno ∧ lineno < cur.start + cur.extent
    · rw [if_pos (show (decide (cur.start ≤ lineno)
          && decide (lineno < cur.start + cur.extent)) = true by simpa using hc2), if_pos hc2]
    · rw [if_neg (show ¬ (decide (cur.start ≤ lineno)
          && decide (lineno < cur.start + cur.extent)) = true by simpa using hc2), if_neg hc2]
  · rw [if_neg (show ¬ (cur.start == lineno) = true by simpa using hc1), List.map_nil,
      List.nil_append]
    by_cases hc2 : cur.start ≤ lineno ∧ lineno < cur.start + cur.extent
    · rw [if_pos (show (decide (cur.start ≤ lineno)
          && decide (lineno < cur.start + cur.extent)) = true by simpa using hc2),
        if_neg (fun hcon => hc1 hcon.symm), if_pos hc2, List.nil_append]
    · rw [if_neg (show ¬ (decide (cur.start ≤ lineno)
          && decide (lineno < cur.start + cur.extent)) = true by simpa using hc2),
        if_neg (fun hcon => hc1 hcon.symm), if_neg hc2, List.nil_append]

lemma writeLoop_eq_specLoop : ∀ (lines : List Bytes) (amends : List AmendmentRecord)
    (lineno : Int),
    amends.Pairwise (fun p q => p.start + p.extent < q.start) →
    (∀ a ∈ amends, 0 ≤ a.extent) →
    (match amends with
     | [] => True
     | h :: t => lineno ≤ h.start + h.extent + 1 ∧ ∀ x ∈ t, lineno ≤ x.start) →
    writeLoop amends lineno lines = specWriteLoop amends lineno lines := by
  intro lines
  induction lines with
  | nil => intro amends lineno _ _ _; cases amends <;> rfl
  | cons line rest ih =>
    intro amends lineno hsort hext hinv
    cases amends with
    | nil =>
      show line :: writeLoop [] (lineno + 1) rest = _
      rw [specWriteLoop_nil_amends, ih [] (lineno + 1) (by simp) (by simp) trivial,
        specWriteLoop_nil_amends]
    | cons h t =>
      obtain ⟨hinv1, hinv2⟩ := hinv
      rw [List.pairwise_cons] at hsort
      obtain ⟨hsort1, hsort2⟩ := hsort
      have hexth : 0 ≤ h.extent := hext h (by simp)
      by_cases hadv : lineno > h.start + h.extent
      · have hlineno : lineno = h.start + h.extent + 1 := by omega
        have hcode : writeLoop (h :: t) lineno (line :: rest)
            = match t with
              | a :: _ =>
                (if lineno = a.start then [a.replacement] else [])
                  ++ (if a.start ≤ lineno ∧ lineno < a.start + a.extent then [] else [line])
                  ++ writeLoop t (lineno + 1) rest
              | [] => line :: writeLoop [] (lineno + 1) rest := by
          simp only [writeLoop]
          rw [if_pos hadv]
          cases t <;> rfl
        rw [hcode]
        cases t with
        | nil =>
          have hb1 : (h.start == lineno) = false := by
            rw [beq_eq_false_iff_ne]; omega
          have hb2 : (decide (h.start ≤ lineno) && decide (lineno < h.start + h.extent))
              = false := by
            have h3 : ¬ (lineno < h.start + h.extent) := by omega
            simp [h3]
          have hspec : specWriteLoop [h] lineno (line :: rest)
              = line :: specWriteLoop [h] (lineno + 1) rest := by
            simp only [specWriteLoop, List.filter_cons, List.any_cons, List.filter_nil,
              List.any_nil, hb1, hb2, Bool.false_eq_true, if_false, Bool.false_or,
              Bool.or_false, List.map_nil, List.nil_append, List.singleton_append]
          rw [hspec, specWriteLoop_drop_head rest h [] (lineno + 1) (by omega) (by omega),
            ih [] (lineno + 1) (by simp) (by simp) trivial]
        | cons a t' =>
          have hastart : lineno ≤ a.start := hinv2 a (by simp)
          have hsort2' := hsort2
          rw [List.pairwise_cons] at hsort2'
          have htail' : ∀ x ∈ t', lineno < x.start := by
            intro x hx
            have h1 := hsort2'.1 x hx
            have h2 := hext a (by simp)
            omega
          have hspec : specWriteLoop (h :: a :: t') lineno (line :: rest)
              = (((a :: t').filter (fun q => q.start == lineno)).map (fun q => q.replacement))
                ++ (if (a :: t').any
                      (fun q => decide (q.start ≤ lineno) && decide (lineno < q.start + q.extent))
                    then [] else [line])
                ++ specWriteLoop (h :: a :: t') (lineno + 1) rest := by
            have hb1 : (h.start == lineno) = false := by
              rw [beq_eq_false_iff_ne]; omega
            have hb2 : (decide (h.start ≤ lineno) && decide (lineno < h.start + h.extent))
                = false := by
              have h3 : ¬ (lineno < h.start + h.extent) := by omega
              simp [h3]
            simp only [specWriteLoop, List.filter_cons, List.any_cons, hb1, hb2,
              Bool.false_eq_true, if_false, Bool.false_or]
          rw [hspec, writeChunk_eq a t' lineno line htail',
            specWriteLoop_drop_head rest h (a :: t') (lineno + 1) (by omega) (by omega)]
          have hih := ih (a :: t') (lineno + 1) hsort2
            (by intro x hx; exact hext x (by simp [List.mem_cons] at hx ⊢; tauto))
            (by refine ⟨by have := hext a (by simp); omega, ?_⟩
                intro x hx
                have := htail' x hx
                omega)
          rw [hih]
      · have hline : lineno ≤ h.start + h.extent := by omega
        have htail : ∀ x ∈ t, lineno < x.start := by
          intro x hx
          have := hsort1 x hx
          omega
        have hcode : writeLoop (h :: t) lineno (line :: rest)
            = (if lineno = h.start then [h.replacement] else [])
              ++ (if h.start ≤ lineno ∧ lineno < h.start + h.extent then [] else [line])
              ++ writeLoop (h :: t) (lineno + 1) rest := by
          simp only [writeLoop]
          rw [if_neg hadv]
        rw [hcode]
        have hspec : specWriteLoop (h :: t) lineno (line :: rest)
            = ((((h :: t).filter (fun q => q.start == lineno)).map (fun q => q.replacement))
              ++ (if (h :: t).any
                    (fun q => decide (q.start ≤ lineno) && decide (lineno < q.start + q.extent))
                  then [] else [line])
              ++ specWriteLoop (h :: t) (lineno + 1) rest) := rfl
        rw [hspec, writeChunk_eq h t lineno line htail]
        have hih := ih (h :: t) (lineno + 1)
          (by rw [List.pairwise_cons]; exact ⟨hsort1, hsort2⟩)
          hext
          (by refine ⟨by omega, ?_⟩
              intro x hx
              have := htail x hx
              omega)
        rw [hih]

/-- **C1 (amended).** For every amended blob whose amendment records are
sorted with strictly separated ranges (`start + extent < next start`),
non-negative extents, and starts ≥ 1, the streaming rewrite of
`AmendedBlob.write` produces, at each line number, the replacements of
amendments starting there, suppresses the input lines inside an
amendment's `[start, start+extent)` range, and passes every other line
through verbatim (the per-line description of the spec).  Strictness of
the separation is necessary: the write loop advances its amendment
pointer at most once per line, so abutting amendments are mishandled. -/
theorem blob_write_matches_spec (amends : List AmendmentRecord) (lines : List Bytes)
    (hsort : amends.Pairwise (fun p q => p.start + p.extent < q.start))
    (hext : ∀ a ∈ amends, 0 ≤ a.extent)
    (hstart : ∀ a ∈ amends, 1 ≤ a.start) :
    blobWrite amends lines = specWrite amends lines := by
  unfold blobWrite specWrite
  apply writeLoop_eq_specLoop lines amends 1 hsort hext
  cases amends with
  | nil => trivial
  | cons h t =>
    refine ⟨?_, ?_⟩
    · have h1 := hext h (by simp)
      have h2 := hstart h (by simp)
      omega
    · intro x hx
      exact hstart x (by simp [hx])

/-- Witness for C1 with two strictly separated amendments on a
three-line blob. -/
theorem blob_write_matches_spec_witness :
    ([⟨1, 1, [100]⟩, ⟨3, 1, [200]⟩] : List AmendmentRecord).Pairwise
        (fun p q => p.start + p.extent < q.start)
      ∧ (∀ a ∈ ([⟨1, 1, [100]⟩, ⟨3, 1, [200]⟩] : List AmendmentRecord), 0 ≤ a.extent)
      ∧ (∀ a ∈ ([⟨1, 1, [100]⟩, ⟨3, 1, [200]⟩] : List AmendmentRecord), 1 ≤ a.start)
      ∧ blobWrite [⟨1, 1, [100]⟩, ⟨3, 1, [200]⟩] [[10], [20], [30]]
          = specWrite [⟨1, 1, [100]⟩, ⟨3, 1, [200]⟩] [[10], [20], [30]] :=
  ⟨by decide, by decide, by decide,
    blob_write_matches_spec [⟨1, 1, [100]⟩, ⟨3, 1, [200]⟩] [[10], [20], [30]]
      (by decide) (by decide) (by decide)⟩

/-! ## Blame coalescing (C4) -/

lemma parseBlameGo_eq_spec (src : IndexedRange) (ib : Bool) :
    ∀ (entries : List BlameLineProperties) (prev? : Option BlameLineProperties)
      (acc : List (IndexedRange × IndexedRange)), blameInv prev? acc →
      parseBlameGo src ib entries acc = specBlameGo blameAdj src ib prev? entries acc := by
  intro entries
  induction entries with
  | nil => intro prev? acc _; rfl
  | cons t rest ih =>
    intro prev? acc hinv
    by_cases hskip : (!ib && t.is_boundary) = true
    · simp only [parseBlameGo, specBlameGo, hskip, if_true]
      exact ih prev? acc hinv
    · have hskip2 : (!ib && t.is_boundary) = false := by
        rwa [Bool.not_eq_true] at hskip
      cases prev? with
      | none =>
        cases acc with
        | nil =>
          simp only [parseBlameGo, specBlameGo, hskip2, Bool.false_eq_true, if_false]
          exact ih (some t) [freshPair src t] (by simp [blameInv, freshPair])
        | cons pair tail => exact absurd hinv (by simp [blameInv])
      | some p =>
        cases acc with
        | nil => exact absurd hinv (by simp [blameInv])
        | cons pair tail =>
          obtain ⟨lastOld, lastNew⟩ := pair
          obtain ⟨hf, ho, hn⟩ := hinv
          have hcond : (!t.starts_seq && lastOld.file == t.filename
                && lastOld.start + lastOld.extent == t.old_line
                && lastNew.start + lastNew.extent == t.new_line)
              = blameAdj p t := by
            rw [Bool.eq_iff_iff]
            unfold blameAdj
            simp only [Bool.and_eq_true, Bool.not_eq_true', beq_iff_eq]
            constructor
            · rintro ⟨⟨⟨h1, h2⟩, h3⟩, h4⟩
              refine ⟨⟨⟨h1, by rw [← hf, h2]⟩, by omega⟩, by omega⟩
            · rintro ⟨⟨⟨h1, h2⟩, h3⟩, h4⟩
              refine ⟨⟨⟨h1, by rw [hf, h2]⟩, by omega⟩, by omega⟩
          simp only [parseBlameGo, specBlameGo, hskip2, Bool.false_eq_true, if_false]
          rw [hcond]
          by_cases hadj : blameAdj p t = true
          · rw [if_pos hadj, if_pos hadj]
            refine ih (some t) _ ?_
            have hadj2 := hadj
            unfold blameAdj at hadj2
            simp only [Bool.and_eq_true, Bool.not_eq_true', beq_iff_eq] at hadj2
            obtain ⟨⟨⟨h1, h2⟩, h3⟩, h4⟩ := hadj2
            refine ⟨by rw [hf, h2],
              by show lastOld.start + (lastOld.extent + 1) = t.old_line + 1; omega,
              by show lastNew.start + (lastNew.extent + 1) = t.new_line + 1; omega⟩
          · rw [if_neg hadj, if_neg hadj]
            exact ih (some t) _ (by simp [blameInv, freshPair])

/-- **C4 (amended).** `parse_blame` equals the greedy sequential
coalescing that widens the last pair exactly when the current entry and
the previous retained entry have the same filename, contiguous source
line numbers, contiguous target line numbers, and the current entry's
header lacks the `starts_seq` flag — the source commit hash is not part
of the condition — and appends a fresh extent-1 pair in every other
case. -/
theorem parse_blame_coalescing (src : IndexedRange) (entries : List BlameLineProperties)
    (ib : Bool) :
    parseBlame src entries ib = specParseBlame blameAdj src entries ib :=
  parseBlameGo_eq_spec src ib entries none [] (by simp [blameInv])

/-- **C2 (counterexample).** For the sorted amendment list `[(5, 0, ..)]`
and a single mapping with old range `[5, 7)`, the amendment's old range
`[5, 5)` is empty, hence intersects no mapping's old range, yet
`adjusted_by_diff` raises the fatal "amendment overlaps diff delta"
error instead of emitting the amendment. -/
theorem adjusted_by_diff_cex :
    adjustedByDiff [⟨5, 0, [9]⟩] [⟨5, 2, 5, 0⟩] = .error "amendment overlaps diff delta"
      ∧ ¬ intervalsIntersect 5 0 5 2 := by
  refine ⟨rfl, ?_⟩
  rintro ⟨x, hx⟩
  omega

/-! ## Diff-parser error windows (C8) -/

lemma parseDiffGo_badLine (L : List String) :
    ∀ (rem : List String) (st : ParserState) (acc : List Hunk) (k n : Nat)
      (ctx : List String),
      parseDiffGo L st acc k rem = .error (.badLine n ctx) →
      k + 1 ≤ n ∧ n ≤ k + rem.length ∧ ctx = buildContextLines L (n - 1) := by
  intro rem
  induction rem with
  | nil =>
    intro st acc k n ctx h
    rw [parseDiffGo] at h
    exact Except.noConfusion h
  | cons line rest ih =>
    intro st acc k n ctx h
    rw [parseDiffGo] at h
    cases hstep : parseStep st line with
    | invalid =>
      rw [hstep] at h
      rw [Except.error.injEq, DiffFatal.badLine.injEq] at h
      obtain ⟨hn, hctx⟩ := h
      subst hn
      refine ⟨le_refl _, by simp, ?_⟩
      simpa using hctx.symm
    | ctorError =>
      rw [hstep] at h
      rw [Except.error.injEq] at h
      exact DiffFatal.noConfusion h
    | ok st2 hunk? =>
      rw [hstep] at h
      have := ih st2 (acc ++ hunk?.toList) (k + 1) n ctx h
      refine ⟨by omega, by simp only [List.length_cons]; omega, this.2.2⟩

lemma parseDiffHunks_badLine (lines : List String) (n : Nat) (ctx : List String)
    (h : parseDiffHunks lines = .error (.badLine n ctx)) :
    1 ≤ n ∧ n ≤ lines.length ∧ ctx = buildContextLines lines (n - 1) := by
  rw [parseDiffHunks] at h
  split at h
  · rename_i e heq
    rw [Except.error.injEq] at h
    subst h
    have := parseDiffGo_badLine lines lines .initial [] 0 n ctx heq
    exact ⟨this.1, by have := this.2.1; omega, this.2.2⟩
  · split at h
    · rw [Except.error.injEq] at h
      exact DiffFatal.noConfusion h
    · split at h
      · rw [Except.error.injEq] at h
        exact DiffFatal.noConfusion h
      · exact Except.noConfusion h
    · split at h
      · rw [Except.error.injEq] at h
        exact DiffFatal.noConfusion h
      · exact Except.noConfusion h

lemma ctx_zip_eq : ∀ (sl : List String) (s : Nat) (g : Nat → String → String),
    ((List.range' s sl.length).zip sl).map (fun p => g p.fst p.snd)
      = (List.range' s sl.length).map (fun j => g j (sl.getD (j - s) "")) := by
  intro sl
  induction sl with
  | nil => intro s g; rfl
  | cons x xs ih =>
    intro s g
    rw [List.length_cons, List.range'_succ, List.zip_cons_cons, List.map_cons, List.map_cons]
    congr 1
    · show g s x = g s ((x :: xs).getD (s - s) "")
      rw [Nat.sub_self]
      rfl
    · rw [ih (s + 1) g]
      apply List.map_congr_left
      intro j hj
      rw [List.mem_range'_1] at hj
      have hjs : s + 1 ≤ j := hj.1
      have hsub : j - s = (j - (s + 1)) + 1 := by omega
      rw [hsub]
      rfl

lemma buildContextLines_eq (lines : List String) (i : Nat) :
    buildContextLines lines i
      = (List.range' (i - 5) (min (i + 5) lines.length - (i - 5))).map
          (fun j => padNum (max 3 (toString (i + 5)).length) (j + 1) ++ " "
            ++ lines.getD j "") := by
  simp only [buildContextLines]
  have hlen : ((lines.take (i + 5)).drop (i - 5)).length
      = min (i + 5) lines.length - (i - 5) := by
    rw [List.length_drop, List.length_take]
  rw [hlen]
  have hz := ctx_zip_eq ((lines.take (i + 5)).drop (i - 5)) (i - 5)
    (fun j str => padNum (max 3 (toString (i + 5)).length) (j + 1) ++ " " ++ str)
  rw [hlen] at hz
  rw [hz]
  apply List.map_congr_left
  intro j hj
  rw [List.mem_range'_1] at hj
  have hj1 : i - 5 ≤ j := hj.1
  have hj2 : j < min (i + 5) lines.length := by omega
  have hjlt : j < lines.length := by omega
  have hjtake : j < (lines.take (i + 5)).length := by
    rw [List.length_take]
    omega
  have hslice : ((lines.take (i + 5)).drop (i - 5)).getD (j - (i - 5)) ""
      = lines.getD j "" := by
    have hblt : j - (i - 5) < ((lines.take (i + 5)).drop (i - 5)).length := by
      rw [List.length_drop, List.length_take]
      omega
    rw [List.getD_eq_getElem _ _ hblt, List.getD_eq_getElem _ _ hjlt]
    rw [List.getElem_drop]
    have harg : (i - 5) + (j - (i - 5)) = j := by omega
    simp only [harg]
    rw [List.getElem_take]
  rw [hslice]

/-- **C8 (amended).** Whenever the diff parser raises the
malformed-line fatal error, the error carries the malformed line's
1-based number `n` (with `1 ≤ n ≤` the number of input lines), and its
context window is exactly the formatted source lines with 0-based
indices in `[n-1-5, min (n-1+5) len)` — that is, up to 5 lines before
the malformed line, the malformed line itself, and up to **4** lines
after it. -/
theorem diff_parse_error_window (lines : List String) (n : Nat) (ctx : List String)
    (herr : parseDiffHunks lines = .error (.badLine n ctx)) :
    1 ≤ n ∧ n ≤ lines.length
      ∧ ctx = (List.range' (n - 1 - 5) (min (n - 1 + 5) lines.length - (n - 1 - 5))).map
          (fun j => padNum (max 3 (toString (n - 1 + 5)).length) (j + 1) ++ " "
            ++ lines.getD j "") := by
  obtain ⟨h1, h2, h3⟩ := parseDiffHunks_badLine lines n ctx herr
  exact ⟨h1, h2, by rw [h3, buildContextLines_eq]⟩

/-- Witness for C8 at the concrete malformed diff used as the
counterexample input. -/
theorem diff_parse_error_window_witness :
    parseDiffHunks
        ["junk0", "junk1", "junk2", "junk3", "junk4",
         "diff --git a/f b/f", "ZZZ", "after0", "after1", "after2", "after3", "after4"]
      = .error (.badLine 7
          ["2   junk1", "3   junk2", "4   junk3", "5   junk4",
           "6   diff --git a/f b/f", "7   ZZZ", "8   after0", "9   after1",
           "10  after2", "11  after3"])
      ∧ (1 ≤ 7 ∧ 7 ≤
          (["junk0", "junk1", "junk2", "junk3", "junk4",
            "diff --git a/f b/f", "ZZZ", "after0", "after1", "after2", "after3",
            "after4"] : List String).length
        ∧ ["2   junk1", "3   junk2", "4   junk3", "5   junk4",
           "6   diff --git a/f b/f", "7   ZZZ", "8   after0", "9   after1",
           "10  after2", "11  after3"]
          = (List.range' (7 - 1 - 5)
              (min (7 - 1 + 5)
                (["junk0", "junk1", "junk2", "junk3", "junk4",
                  "diff --git a/f b/f", "ZZZ", "after0", "after1", "after2", "after3",
                  "after4"] : List String).length - (7 - 1 - 5))).map
              (fun j => padNum (max 3 (toString (7 - 1 + 5)).length) (j + 1) ++ " "
                ++ (["junk0", "junk1", "junk2", "junk3", "junk4",
                     "diff --git a/f b/f", "ZZZ", "after0", "after1", "after2", "after3",
                     "after4"] : List String).getD j "")) :=
  ⟨rfl,
    diff_parse_error_window
      ["junk0", "junk1", "junk2", "junk3", "junk4",
       "diff --git a/f b/f", "ZZZ", "after0", "after1", "after2", "after3", "after4"]
      7
      ["2   junk1", "3   junk2", "4   junk3", "5   junk4",
       "6   diff --git a/f b/f", "7   ZZZ", "8   after0", "9   after1",
       "10  after2", "11  after3"]
      rfl⟩

/-- **C8 (counterexample).** A diff whose line 7 (0-based index 6) is
malformed, with six lines following it: the parser raises the fatal
error carrying line number 7, but its context window covers only the 4
lines after the malformed line (source lines 8–11, `after0`–`after3`)
— the 5th following line `after4` is absent — whereas the claim's
window of 5-before/5-after contains `after4`. -/
theorem diff_context_window_cex :
    parseDiffHunks
        ["junk0", "junk1", "junk2", "junk3", "junk4",
         "diff --git a/f b/f", "ZZZ", "after0", "after1", "after2", "after3", "after4"]
      = .error (.badLine 7
          ["2   junk1", "3   junk2", "4   junk3", "5   junk4",
           "6   diff --git a/f b/f", "7   ZZZ", "8   after0", "9   after1",
           "10  after2", "11  after3"])
      ∧ claimContextWindow
          ["junk0", "junk1", "junk2", "junk3", "junk4",
           "diff --git a/f b/f", "ZZZ", "after0", "after1", "after2", "after3", "after4"] 6
        = ["junk1", "junk2", "junk3", "junk4", "diff --git a/f b/f",
           "after0", "after1", "after2", "after3", "after4"]
      ∧ "after4" ∈
          claimContextWindow
            ["junk0", "junk1", "junk2", "junk3", "junk4",
             "diff --git a/f b/f", "ZZZ", "after0", "after1", "after2", "after3", "after4"] 6
      ∧ ∀ s ∈
          ["2   junk1", "3   junk2", "4   junk3", "5   junk4",
           "6   diff --git a/f b/f", "7   ZZZ", "8   after0", "9   after1",
           "10  after2", "11  after3"], hasSubstr "after4".data s.data = false := by
  refine ⟨rfl, rfl, by decide, by decide⟩

end GitFold
